import Mathlib

/-!
Shallow embedding of `scripts/extract-standalone.ts` from the droid-custom
repository: the extractor that locates the payload embedded in a
`bun build --compile` executable, parses the module table, reconstructs safe
relative paths and writes the files plus a manifest.

Modeling conventions:
* raw bytes are `List Nat` (each entry a byte value);
* JavaScript strings are `List Char`;
* the host path model is POSIX (`path.sep = '/'`); the writer is modeled for
  absolute output directories, which is what `main` always passes after
  `path.resolve`;
* fallible functions return `Except (List Char) _` where the TypeScript code
  throws, keeping the original error message strings;
* filesystem writes are reified as a list of `WriteItem` values in the order
  the code performs them; the JSON manifest is kept structured.
-/

set_option maxRecDepth 100000

/-- Replacement character U+FFFD emitted by lenient UTF-8 decoding. -/
def replacementChar : Char := Char.ofNat 0xFFFD

/-- WHATWG UTF-8 decoder with replacement on error: the model of
`new TextDecoder("utf-8", { fatal: false, ignoreBOM: true }).decode`. -/
def utf8Decode : List Nat → List Char
  | [] => []
  | b :: rest =>
    if b < 0x80 then Char.ofNat b :: utf8Decode rest
    else if 0xC2 ≤ b ∧ b ≤ 0xDF then
      match rest with
      | [] => [replacementChar]
      | c1 :: rest1 =>
        if 0x80 ≤ c1 ∧ c1 ≤ 0xBF then
          Char.ofNat ((b - 0xC0) * 64 + (c1 - 0x80)) :: utf8Decode rest1
        else replacementChar :: utf8Decode (c1 :: rest1)
    else if 0xE0 ≤ b ∧ b ≤ 0xEF then
      match rest with
      | [] => [replacementChar]
      | c1 :: rest1 =>
        if (if b = 0xE0 then 0xA0 else 0x80) ≤ c1 ∧ c1 ≤ (if b = 0xED then 0x9F else 0xBF) then
          match rest1 with
          | [] => [replacementChar]
          | c2 :: rest2 =>
            if 0x80 ≤ c2 ∧ c2 ≤ 0xBF then
              Char.ofNat ((b - 0xE0) * 4096 + (c1 - 0x80) * 64 + (c2 - 0x80)) :: utf8Decode rest2
            else replacementChar :: utf8Decode (c2 :: rest2)
        else replacementChar :: utf8Decode (c1 :: rest1)
    else if 0xF0 ≤ b ∧ b ≤ 0xF4 then
      match rest with
      | [] => [replacementChar]
      | c1 :: rest1 =>
        if (if b = 0xF0 then 0x90 else 0x80) ≤ c1 ∧ c1 ≤ (if b = 0xF4 then 0x8F else 0xBF) then
          match rest1 with
          | [] => [replacementChar]
          | c2 :: rest2 =>
            if 0x80 ≤ c2 ∧ c2 ≤ 0xBF then
              match rest2 with
              | [] => [replacementChar]
              | c3 :: rest3 =>
                if 0x80 ≤ c3 ∧ c3 ≤ 0xBF then
                  Char.ofNat ((b - 0xF0) * 262144 + (c1 - 0x80) * 4096 +
                      (c2 - 0x80) * 64 + (c3 - 0x80)) :: utf8Decode rest3
                else replacementChar :: utf8Decode (c3 :: rest3)
            else replacementChar :: utf8Decode (c2 :: rest2)
        else replacementChar :: utf8Decode (c1 :: rest1)
    else replacementChar :: utf8Decode rest

/-- Little-endian 16-bit read (`DataView.getUint16(off, true)`); every use in
the source is bounds-checked first, so out-of-range bytes default to 0. -/
def readU16LE (b : List Nat) (o : Nat) : Nat :=
  b.getD o 0 + b.getD (o + 1) 0 * 256

/-- Little-endian 32-bit read (`DataView.getUint32(off, true)`). -/
def readU32LE (b : List Nat) (o : Nat) : Nat :=
  b.getD o 0 + b.getD (o + 1) 0 * 256 + b.getD (o + 2) 0 * 65536 +
    b.getD (o + 3) 0 * 16777216

/-- Little-endian 64-bit read (`DataView.getBigUint64(off, true)`). -/
def readU64LE (b : List Nat) (o : Nat) : Nat :=
  readU32LE b o + readU32LE b (o + 4) * 4294967296

/-- The JS constant Number.MAX_SAFE_INTEGER. -/
def MAX_SAFE_INTEGER : Nat := 2 ^ 53 - 1

/-- The byte sequence of the trailer marker string `"\n---- Bun! ----\n"`. -/
def TRAILER_BYTES : List Nat := "\n---- Bun! ----\n".data.map Char.toNat

/-- Constant `OFFSETS_SIZE` from the source. -/
def OFFSETS_SIZE : Nat := 32

/-- Constant `MODULE_RECORD_SIZE` from the source (primary record stride). -/
def MODULE_RECORD_SIZE : Nat := 40

/-- Model of `lastIndexOfSubarray`: index of the last occurrence of `needle` in
`haystack`, `none` for the source's `-1`. -/
def lastIndexOfSubarray (haystack needle : List Nat) : Option Nat :=
  if needle.length = 0 ∨ haystack.length < needle.length then none
  else ((List.range (haystack.length - needle.length + 1)).reverse).find?
    (fun i => (haystack.drop i).take needle.length == needle)

/-- A `StringPointer`: an (offset, length) pair into the truncated payload. -/
structure StringPointer where
  offset : Nat
  length : Nat
deriving DecidableEq, Repr

/-- The single error message `slicePointer` throws for any out-of-range
pointer, regardless of which field the pointer came from. -/
def slicePointerMsg : List Char := "字符串指针越界，嵌入数据损坏".data

/-- Model of `slicePointer`: zero-length pointers yield an empty buffer without any
bounds check; otherwise `offset + length` is validated against the buffer
before slicing. -/
def slicePointer (bytes : List Nat) (ptr : StringPointer) : Except (List Char) (List Nat) :=
  if ptr.length = 0 then .ok []
  else if ptr.offset + ptr.length > bytes.length then .error slicePointerMsg
  else .ok ((bytes.drop ptr.offset).take ptr.length)

/-- Model of `decodeUtf8`: empty string for a zero-length pointer, else slice and
leniently decode. -/
def decodeUtf8 (bytes : List Nat) (ptr : StringPointer) : Except (List Char) (List Char) :=
  if ptr.length = 0 then .ok []
  else (slicePointer bytes ptr).map utf8Decode

/-- Model of `readPointer`: two unchecked little-endian u32 reads from the offset
table region (the source bounds-checks the region once, via the trailer). -/
def readPointer (b : List Nat) (o : Nat) : StringPointer :=
  ⟨readU32LE b o, readU32LE b (o + 4)⟩

/-- Model of `readPointerFromPayload`: checked pointer read from the module table. -/
def readPointerFromPayload (bytes : List Nat) (o : Nat) : Except (List Char) StringPointer :=
  if o + 8 > bytes.length then .error "模块表中的指针越界".data
  else .ok ⟨readU32LE bytes o, readU32LE bytes (o + 4)⟩

/-- A `ModuleRecord` as decoded by the parser. -/
structure ModuleRecord where
  originalPath : List Char
  contents : List Nat
  sourcemap : Option (List Nat)
  bytecode : Option (List Nat)
  encoding : Nat
  loader : Nat
  moduleFormat : Nat
  side : Nat
deriving DecidableEq, Repr

/-- The `ParsedStandalone` result of the bundle parser. -/
structure ParsedStandalone where
  modules : List ModuleRecord
  entryPointId : Nat
  compileExecArgv : List Char
deriving DecidableEq, Repr

/-- One record of the module table: four pointers at fixed sub-offsets, four
single-byte tags (missing tag bytes take the `??` defaults), then the four
decode/slice steps in source order. -/
def parseModuleRecord (payload : List Nat) (base : Nat) : Except (List Char) ModuleRecord := do
  let namePtr ← readPointerFromPayload payload base
  let contentsPtr ← readPointerFromPayload payload (base + 8)
  let sourcemapPtr ← readPointerFromPayload payload (base + 16)
  let bytecodePtr ← readPointerFromPayload payload (base + 24)
  let encoding := payload.getD (base + 32) 0
  let loader := payload.getD (base + 33) 5
  let moduleFormat := payload.getD (base + 34) 0
  let side := payload.getD (base + 35) 0
  let originalPath ← decodeUtf8 payload namePtr
  let contents ← slicePointer payload contentsPtr
  let sourcemap ← if 0 < sourcemapPtr.length then (slicePointer payload sourcemapPtr).map some
    else pure none
  let bytecode ← if 0 < bytecodePtr.length then (slicePointer payload bytecodePtr).map some
    else pure none
  pure ⟨originalPath, contents, sourcemap, bytecode, encoding, loader, moduleFormat, side⟩

/-- Record-stride selection (lines 229-237): prefer the primary 40-byte
width, fall back to the legacy 36-byte width, otherwise fail. -/
def chooseStride (len : Nat) : Except (List Char) Nat :=
  if len % MODULE_RECORD_SIZE ≠ 0 then
    if len % 36 = 0 then .ok 36
    else .error "模块记录长度不是已知的结构尺寸整数倍 (36 或 40 字节)".data
  else .ok MODULE_RECORD_SIZE

/-- Model of `parseStandalone`: trailer search, offset table decode, bounds checks,
stride selection and the record loop, in source order. -/
def parseStandalone (blob : List Nat) : Except (List Char) ParsedStandalone := do
  if blob.length < TRAILER_BYTES.length + OFFSETS_SIZE then
    throw "嵌入数据长度过短，缺少尾部标记或偏移表".data
  match lastIndexOfSubarray blob TRAILER_BYTES with
  | none => throw "未找到 bun 末尾标记，文件可能不是 bun build --compile 生成的".data
  | some trailerIndex => do
    if trailerIndex < OFFSETS_SIZE then throw "偏移数据位置非法".data
    let offsetsPos := trailerIndex - OFFSETS_SIZE
    let byteCount := readU64LE blob offsetsPos
    if byteCount > MAX_SAFE_INTEGER then throw "嵌入数据过大，超出 JS 可安全表示的范围".data
    let modulesPtr := readPointer blob (offsetsPos + 8)
    let entryPointId := readU32LE blob (offsetsPos + 16)
    let compileExecArgvPtr := readPointer blob (offsetsPos + 20)
    if byteCount > blob.length then throw "偏移表中的 byte_count 超出嵌入数据范围".data
    let payload := blob.take byteCount
    if modulesPtr.offset + modulesPtr.length > payload.length then
      throw "模块表越界，嵌入数据可能损坏".data
    let recordSize ← chooseStride modulesPtr.length
    let recordCount := modulesPtr.length / recordSize
    let modules ← (List.range recordCount).mapM
      (fun i => parseModuleRecord payload (modulesPtr.offset + i * recordSize))
    let compileExecArgv ← decodeUtf8 payload compileExecArgvPtr
    pure ⟨modules, entryPointId, compileExecArgv⟩

/-- Model of `decodeAsciiNullTerminated`: decode the bytes before the first NUL. -/
def decodeAsciiNullTerminated (bytes : List Nat) : List Char :=
  utf8Decode (bytes.takeWhile (fun b => b ≠ 0))

/-- Strategy A, `extractBunSection`: walk the PE headers, find the `.bun`
section and return its 4-byte-length-prefixed payload slice. -/
def extractBunSectionLoop (fb : List Nat) (tbl : Nat) : Nat → Nat → Except (List Char) (List Nat)
  | _, 0 => .error "未在 PE 文件中找到 .bun 节，无法解析嵌入数据".data
  | i, n + 1 =>
    let sectionOffset := tbl + i * 40
    if sectionOffset + 40 > fb.length then .error "节表记录越界".data
    else if decodeAsciiNullTerminated ((fb.drop sectionOffset).take 8) ≠ ".bun".data then
      extractBunSectionLoop fb tbl (i + 1) n
    else
      let sizeOfRawData := readU32LE fb (sectionOffset + 16)
      let pointerToRawData := readU32LE fb (sectionOffset + 20)
      if pointerToRawData + sizeOfRawData > fb.length ∨ pointerToRawData + 4 > fb.length then
        .error ".bun 节数据越界".data
      else
        let dataLength := readU32LE fb pointerToRawData
        let dataStart := pointerToRawData + 4
        let dataEnd := dataStart + dataLength
        if dataEnd > pointerToRawData + sizeOfRawData ∨ dataEnd > fb.length then
          .error ".bun 节的长度前缀与实际数据不匹配".data
        else .ok ((fb.drop dataStart).take dataLength)

/-- Header validation of `extractBunSection` before the section-table scan. -/
def extractBunSection (fileBytes : List Nat) : Except (List Char) (List Nat) :=
  if fileBytes.length < 0x40 ∨ readU16LE fileBytes 0 ≠ 0x5a4d then
    .error "文件不是有效的 PE (MZ) 可执行文件".data
  else
    let peHeaderOffset := readU32LE fileBytes 0x3c
    if peHeaderOffset + 24 > fileBytes.length then .error "PE 头越界，文件可能已损坏".data
    else if readU32LE fileBytes peHeaderOffset ≠ 0x4550 then
      .error "未找到 PE\\0\\0 签名，确定这是 Windows 的 bun 可执行文件吗？".data
    else
      let numberOfSections := readU16LE fileBytes (peHeaderOffset + 6)
      let sizeOfOptionalHeader := readU16LE fileBytes (peHeaderOffset + 20)
      let sectionTableOffset := peHeaderOffset + 24 + sizeOfOptionalHeader
      if sectionTableOffset > fileBytes.length then .error "节表位置非法".data
      else extractBunSectionLoop fileBytes sectionTableOffset 0 numberOfSections

/-- Strategy B, `extractTrailerAppendedBlob`: 8-byte little-endian total
length at the end of the file, with the zero / too-large / unsafe-integer /
negative-start / missing-marker rejections of the source. -/
def extractTrailerAppendedBlob (fileBytes : List Nat) : Option (List Nat) :=
  if fileBytes.length < TRAILER_BYTES.length + OFFSETS_SIZE + 8 then none
  else match lastIndexOfSubarray fileBytes TRAILER_BYTES with
  | none => none
  | some _ =>
    let totalBytes := readU64LE fileBytes (fileBytes.length - 8)
    if totalBytes = 0 then none
    else if totalBytes > fileBytes.length then none
    else if totalBytes > MAX_SAFE_INTEGER then none
    else
      let start : Int := (fileBytes.length : Int) - 8 - (totalBytes : Int)
      if start < 0 then none
      else
        let blob := (fileBytes.take (fileBytes.length - 8)).drop start.toNat
        match lastIndexOfSubarray blob TRAILER_BYTES with
        | none => none
        | some _ => some blob

/-- Model of `extractEmbeddedData`: Strategy A, with Strategy B attempted only when A
throws; if both fail the PE error message is extended with the trailer note. -/
def extractEmbeddedData (fileBytes : List Nat) : Except (List Char) (List Nat) :=
  match extractBunSection fileBytes with
  | .ok p => .ok p
  | .error peMsg =>
    match extractTrailerAppendedBlob fileBytes with
    | some fallback => .ok fallback
    | none =>
      .error (peMsg ++ "；同时也未检测到结尾的 Bun trailer。请确认该可执行文件确实由 \"bun build --compile\" 生成。".data)

/-- Split a character list at every character satisfying `p`; the model of
JavaScript `String.prototype.split` with a single-character-class pattern
(adjacent separators produce empty pieces, as in JS). -/
def splitP (p : Char → Bool) : List Char → List (List Char)
  | [] => [[]]
  | c :: cs =>
    let r := splitP p cs
    if p c then [] :: r
    else (c :: r.headD []) :: r.tail

/-- Join pieces with a single separator character: `Array.prototype.join`. -/
def joinSep (c : Char) : List (List Char) → List Char
  | [] => []
  | [x] => x
  | x :: y :: xs => x ++ c :: joinSep c (y :: xs)

/-- Forward slash test: path separator of the modeled POSIX host. -/
def slashB (c : Char) : Bool := c = '/'

/-- Either path separator character, the class `[\\/]` of the source. -/
def sepB (c : Char) : Bool := c = '/' || c = '\\'

/-- The segment `".."`. -/
def dotdot : List Char := ['.', '.']

/-- Characters replaced by `_` (the class `[:*?"<>|]`). -/
def illegalChar (c : Char) : Bool :=
  c = ':' || c = '*' || c = '?' || c = '"' || c = '<' || c = '>' || c = '|'

/-- Strip a case-insensitive literal from the front, if present
(an anchored `/^lit/i` regex replace with the empty string). -/
def ciStrip (pat s : List Char) : Option (List Char) :=
  if pat.length ≤ s.length ∧ (s.take pat.length).map Char.toLower = pat.map Char.toLower then
    some (s.drop pat.length)
  else none

/-- Strip a case-sensitive literal from the front (`/^lit/`). -/
def csStrip (pat s : List Char) : Option (List Char) :=
  if pat.isPrefixOf s then some (s.drop pat.length) else none

/-- Strip `[A-Z]` followed by a case-insensitive literal (`/^[A-Z]:.../i`;
with the `i` flag the class also matches lowercase letters). -/
def driveStrip (tail s : List Char) : Option (List Char) :=
  match s with
  | [] => none
  | c :: rest => if c.isAlpha then ciStrip tail rest else none

/-- Strip `^\.\/+`: a dot followed by one or more slashes. -/
def dotSlashStrip (s : List Char) : Option (List Char) :=
  match s with
  | '.' :: '/' :: rest => some (rest.dropWhile (fun c => c = '/'))
  | _ => none

/-- Apply one prefix rule if it matches, keeping the string otherwise. -/
def applyStrip (f : List Char → Option (List Char)) (s : List Char) : List Char :=
  (f s).getD s

/-- The ordered virtual-root prefix strips of `sanitizeModulePath`, each
applied once in sequence, exactly as the source's `for` loop does. -/
def stripVirtualRoots (s0 : List Char) : List Char :=
  let s1 := applyStrip (ciStrip "B:/~BUN/root/".data) s0
  let s2 := applyStrip (driveStrip ":/~BUN/root/".data) s1
  let s3 := applyStrip (csStrip "/$bunfs/root/".data) s2
  let s4 := applyStrip (ciStrip "B:/~BUN/".data) s3
  let s5 := applyStrip (driveStrip ":/~BUN/".data) s4
  let s6 := applyStrip (csStrip "/$bunfs/".data) s5
  let s7 := applyStrip dotSlashStrip s6
  let s8 := applyStrip (csStrip "root/".data) s7
  applyStrip (csStrip "/root/".data) s8

/-- The character-level pipeline of `sanitizeModulePath` before the final
split: NUL strip, prefix strips, illegal-character replacement, carriage
return strip, backslash normalization, leading-dot strip. -/
def preSanitize (original : List Char) : List Char :=
  let r0 := original.filter (fun c => c ≠ Char.ofNat 0)
  let r1 := stripVirtualRoots r0
  let r2 := r1.map (fun c => if illegalChar c then '_' else c)
  let r3 := r2.filter (fun c => c ≠ '\r')
  let r4 := r3.map (fun c => if c = '\\' then '/' else c)
  r4.dropWhile (fun c => c = '.')

/-- Model of `sanitizeModulePath`: pipeline, then split on `/`, drop empty and `..`
segments, and rejoin with `/`. -/
def sanitizeModulePath (original : List Char) : List Char :=
  joinSep '/' ((splitP slashB (preSanitize original)).filter
    (fun part => ¬(part = [] ∨ part = dotdot)))

/-- Decimal digits of `n`, with structural fuel (`n + 1` always suffices,
since `n / 10 < n` for `n ≥ 10`). -/
def natToDecAux : Nat → Nat → List Char
  | 0, _ => []
  | fuel + 1, n =>
    if n < 10 then [Char.ofNat (48 + n)]
    else natToDecAux fuel (n / 10) ++ [Char.ofNat (48 + n % 10)]

/-- Decimal rendering of a natural number, the model of JS
`Number.prototype.toString` for array indices and collision counters. -/
def natToDec (n : Nat) : List Char := natToDecAux (n + 1) n

/-- Model of `String.prototype.padStart(4, "0")`. -/
def padStart4 (s : List Char) : List Char :=
  List.replicate (4 - s.length) '0' ++ s

/-- The `loaderDefaultExtensions` table (keys 0..18 contiguous). -/
def loaderExtTable : List (List Char) :=
  [".jsx".data, ".js".data, ".ts".data, ".tsx".data, ".css".data, "".data,
   ".json".data, ".json".data, ".toml".data, ".wasm".data, ".node".data,
   ".txt".data, ".txt".data, ".txt".data, ".sh".data, ".sqlite".data,
   ".sqlite".data, ".html".data, ".yaml".data]

/-- The lookup `loaderDefaultExtensions[loader] ?? ".bin"`. -/
def fallbackExt (loader : Nat) : List Char :=
  (loaderExtTable.get? loader).getD ".bin".data

/-- The synthesized `module-XXXX<ext>` fallback name. -/
def fallbackName (loader index : Nat) : List Char :=
  "module-".data ++ padStart4 (natToDec index) ++ fallbackExt loader

/-- Index of the last `'.'` in a list of characters. -/
def lastDotIdx : List Char → Option Nat
  | [] => none
  | c :: cs =>
    match lastDotIdx cs with
    | some i => some (i + 1)
    | none => if c = '.' then some 0 else none

/-- Model of `path.extname` (POSIX), restricted to the slash-free basename taken after
the last `/`: empty when there is no dot or the only dot starts the basename
or the basename is exactly `".."`, otherwise the suffix from the last dot. -/
def extname (s : List Char) : List Char :=
  let b := ((splitP slashB s).getLastD [])
  match lastDotIdx b with
  | none => []
  | some 0 => []
  | some (i + 1) => if b = dotdot then [] else b.drop (i + 1)

/-- Model of `path.isAbsolute` on the POSIX host. -/
def isAbsolutePosix (s : List Char) : Bool := s.headD ' ' = '/'

/-- The `usedPaths` map: association list keyed by lowercased path. -/
abbrev UsedMap := List (List Char × Nat)

/-- Model of `Map.prototype.get` (`none` when `has` is false). -/
def mapGet (used : UsedMap) (k : List Char) : Option Nat :=
  (used.find? (fun e => e.1 = k)).map (fun e => e.2)

/-- Model of `Map.prototype.set`: replace an existing key or append a new binding. -/
def mapSet (used : UsedMap) (k : List Char) (v : Nat) : UsedMap :=
  if used.any (fun e => e.1 = k) then
    used.map (fun e => if e.1 = k then (e.1, v) else e)
  else used ++ [(k, v)]

/-- Lines 354-363 of `chooseRelativePath`: strip leading separators, replace
an empty or absolute candidate by the fallback name, split on both separator
kinds, drop empty pieces and rejoin on the host separator. -/
def chooseFinalPathTail (candidate1 : List Char) (loader index : Nat) : List Char :=
  let candidate2 := candidate1.dropWhile sepB
  let candidate3 :=
    if candidate2 = [] ∨ isAbsolutePosix candidate2 then fallbackName loader index
    else candidate2
  let normalized := (splitP sepB candidate3).filter (fun part => part ≠ [])
  let finalPath0 := joinSep '/' normalized
  if finalPath0 = [] then "module-".data ++ padStart4 (natToDec index) else finalPath0

/-- Lines 348-363 of `chooseRelativePath`, which do not involve the seen-map:
sanitize, fall back to `module-XXXX` names where required, then normalize. -/
def chooseFinalPath (m : ModuleRecord) (index : Nat) : List Char :=
  let candidate0 := sanitizeModulePath m.originalPath
  let candidate1 := if candidate0 = [] then fallbackName m.loader index else candidate0
  chooseFinalPathTail candidate1 m.loader index

/-- Model of `chooseRelativePath`: the final path of lines 348-363, then collision
resolution through the case-insensitive seen-map; returns the chosen path
and the updated map. -/
def chooseRelativePath (m : ModuleRecord) (index : Nat) (used : UsedMap) :
    List Char × UsedMap :=
  let finalPath := chooseFinalPath m index
  let key := finalPath.map Char.toLower
  match mapGet used key with
  | some cnt =>
    let count := cnt + 1
    let ext := extname finalPath
    let base := finalPath.take (finalPath.length - ext.length)
    (base ++ '.' :: natToDec count ++ ext, mapSet used key count)
  | none => (finalPath, mapSet used key 1)

/-- Normalization step of POSIX `path.resolve`: empty and `.` segments are
dropped, `..` pops the previous segment (or is dropped at the root). -/
def normStep (acc : List (List Char)) (s : List Char) : List (List Char) :=
  if s = [] ∨ s = ['.'] then acc
  else if s = dotdot then acc.dropLast
  else acc ++ [s]

/-- Fold `normStep` over a segment list. -/
def normFold (acc : List (List Char)) (l : List (List Char)) : List (List Char) :=
  l.foldl normStep acc

/-- Render an absolute path from its segments (`/` for the empty list). -/
def renderAbs (segs : List (List Char)) : List Char :=
  '/' :: joinSep '/' segs

/-- Normalize a string to an absolute POSIX path. -/
def normalizeAbs (s : List Char) : List Char :=
  renderAbs (normFold [] (splitP slashB s))

/-- Model of `path.resolve(base, rel)` on the POSIX host, for an absolute `base`:
an absolute `rel` replaces `base`, otherwise the two are joined and the
result normalized. -/
def pathResolve (base rel : List Char) : List Char :=
  if rel.headD ' ' = '/' then normalizeAbs rel
  else normalizeAbs (base ++ '/' :: rel)

/-- Model of `ensureTrailingSep` from the source. -/
def ensureTrailingSep (dir : List Char) : List Char :=
  if dir.getLast? = some '/' then dir else dir ++ ['/']

/-- The containment test of `writeOutputs` line 292:
`targetPath.startsWith(resolvedOutputWithSep) || targetPath === resolvedOutput`. -/
def insideCheckB (resolvedOutput withSep target : List Char) : Bool :=
  withSep.isPrefixOf target || target == resolvedOutput

/-- One entry of `metadata.json`'s `modules` array. -/
structure ManifestEntry where
  index : Nat
  originalPath : List Char
  relativePath : List Char
  loader : Nat
  encoding : Nat
  moduleFormat : Nat
  side : Nat
  hasSourcemap : Bool
  hasBytecode : Bool
deriving DecidableEq, Repr

/-- A reified filesystem write, one constructor per `writeFile` site. -/
inductive WriteItem where
  | content (path : List Char) (bytes : List Nat)
  | sourcemapFile (path : List Char) (bytes : List Nat)
  | bytecodeFile (path : List Char) (bytes : List Nat)
  | execArgvFile (path : List Char) (text : List Char)
  | manifestFile (path : List Char) (entries : List ManifestEntry)
      (entryPointId : Nat) (argv : List Char)
deriving DecidableEq

/-- Absolute path of a reified write. -/
def WriteItem.path : WriteItem → List Char
  | .content p _ => p
  | .sourcemapFile p _ => p
  | .bytecodeFile p _ => p
  | .execArgvFile p _ => p
  | .manifestFile p _ _ _ => p

/-- The manifest entry built for one module. -/
def mkEntry (index : Nat) (m : ModuleRecord) (rel : List Char) : ManifestEntry :=
  ⟨index, m.originalPath, rel, m.loader, m.encoding, m.moduleFormat, m.side,
    m.sourcemap.isSome, m.bytecode.isSome⟩

/-- The writes performed for one module once its target passed the check:
contents always, then `.map` and `.bytecode.bin` only when present. -/
def moduleWrites (resolvedOutput : List Char) (m : ModuleRecord) (rel : List Char) :
    List WriteItem :=
  let target := pathResolve resolvedOutput rel
  WriteItem.content target m.contents ::
    ((match m.sourcemap with
      | some sm => [WriteItem.sourcemapFile (target ++ ".map".data) sm]
      | none => []) ++
     (match m.bytecode with
      | some bc => [WriteItem.bytecodeFile (target ++ ".bytecode.bin".data) bc]
      | none => []))

/-- The loop body of `writeOutputs` for one module and its chosen relative
path: the resolved target is rechecked against the output directory, and a
failing check raises the fatal path-escape error before any write. -/
def writeModuleChecked (resolvedOutput withSep : List Char) (m : ModuleRecord)
    (index : Nat) (rel : List Char) :
    Except (List Char) (List WriteItem × ManifestEntry) :=
  let target := pathResolve resolvedOutput rel
  if insideCheckB resolvedOutput withSep target then
    .ok (moduleWrites resolvedOutput m rel, mkEntry index m rel)
  else .error ("生成的路径越界: ".data ++ target)

/-- The module loop of `writeOutputs`: writes and manifest rows accumulate in
record order; an error stops the loop, keeping the writes made so far. -/
def processModules (resolvedOutput withSep : List Char) :
    List ModuleRecord → Nat → UsedMap →
    List WriteItem × List ManifestEntry × Option (List Char)
  | [], _, _ => ([], [], none)
  | m :: rest, index, used =>
    let chosen := chooseRelativePath m index used
    match writeModuleChecked resolvedOutput withSep m index chosen.1 with
    | .error e => ([], [], some e)
    | .ok (ws, entry) =>
      let r := processModules resolvedOutput withSep rest (index + 1) chosen.2
      (ws ++ r.1, entry :: r.2.1, r.2.2)

/-- Model of `writeOutputs`: resolve the output directory, run the module loop, then
write `__compile_exec_argv.txt` (only when non-empty) and `metadata.json`.
The result is the ordered write list and the error, if one was raised. -/
def writeOutputs (parsed : ParsedStandalone) (outputDir : List Char) :
    List WriteItem × Option (List Char) :=
  let resolvedOutput := normalizeAbs outputDir
  let withSep := ensureTrailingSep resolvedOutput
  let r := processModules resolvedOutput withSep parsed.modules 0 []
  match r.2.2 with
  | some e => (r.1, some e)
  | none =>
    let argvWrites :=
      if parsed.compileExecArgv = [] then []
      else [WriteItem.execArgvFile (pathResolve resolvedOutput "__compile_exec_argv.txt".data)
              (parsed.compileExecArgv ++ ['\n'])]
    (r.1 ++ argvWrites ++
      [WriteItem.manifestFile (pathResolve resolvedOutput "metadata.json".data)
        r.2.1 parsed.entryPointId parsed.compileExecArgv], none)

/-- The whole run of `main` after the input file is read: locate the payload,
parse it, write the outputs; an error anywhere aborts with no further writes. -/
def runExtraction (exeBytes : List Nat) (outputDir : List Char) :
    List WriteItem × Option (List Char) :=
  match extractEmbeddedData exeBytes with
  | .error e => ([], some e)
  | .ok blob =>
    match parseStandalone blob with
    | .error e => ([], some e)
    | .ok parsed => writeOutputs parsed outputDir

/-- The content-file writes of a write list, with their paths and bytes. -/
def contentWrites (ws : List WriteItem) : List (List Char × List Nat) :=
  ws.filterMap (fun w => match w with
    | .content p b => some (p, b)
    | _ => none)

/-- A list of replicated zero bytes, for building synthetic payloads. -/
def zeros (n : Nat) : List Nat := List.replicate n 0

/-- Synthetic payload: `byteCount = 0` but `modulesPointer = (0, 8)`, so the
module-table end exceeds the truncated length. -/
def badModulesBlob : List Nat :=
  zeros 8 ++ [0, 0, 0, 0] ++ [8, 0, 0, 0] ++ zeros 4 ++ zeros 8 ++ zeros 4 ++ TRAILER_BYTES

/-- Synthetic payload: one 40-byte record whose contents pointer has length
100, past the 40-byte truncated payload. -/
def badContentsBlob : List Nat :=
  (zeros 8 ++ ([0, 0, 0, 0] ++ [100, 0, 0, 0]) ++ zeros 8 ++ zeros 8 ++ zeros 8) ++
  ([40, 0, 0, 0, 0, 0, 0, 0] ++ [0, 0, 0, 0] ++ [40, 0, 0, 0] ++ zeros 4 ++ zeros 8 ++ zeros 4) ++
  TRAILER_BYTES

/-- Synthetic payload like `badContentsBlob`, but with the out-of-range
pointer in the source-map field instead. -/
def badSourcemapBlob : List Nat :=
  (zeros 8 ++ zeros 8 ++ ([0, 0, 0, 0] ++ [100, 0, 0, 0]) ++ zeros 8 ++ zeros 8) ++
  ([40, 0, 0, 0, 0, 0, 0, 0] ++ [0, 0, 0, 0] ++ [40, 0, 0, 0] ++ zeros 4 ++ zeros 8 ++ zeros 4) ++
  TRAILER_BYTES

/-- Synthetic legacy bundle: the module array is 36 bytes long (one legacy
record), not a multiple of the primary 40-byte stride; the single record
names `a.js` with contents `a.js`'s bytes, encoding 1, loader 1. -/
def legacyBlob : List Nat :=
  ([97, 46, 106, 115] ++
   (([0, 0, 0, 0] ++ [4, 0, 0, 0]) ++ ([0, 0, 0, 0] ++ [4, 0, 0, 0]) ++
    zeros 8 ++ zeros 8 ++ [1, 1, 0, 0])) ++
  ([40, 0, 0, 0, 0, 0, 0, 0] ++ ([4, 0, 0, 0] ++ [36, 0, 0, 0]) ++ zeros 4 ++ zeros 8 ++ zeros 4) ++
  TRAILER_BYTES

/-- Synthetic payload whose single record (at base 2) carries a present
2-byte source map `[7, 8]` and zero-length name/contents pointers. -/
def smPayload : List Nat :=
  [7, 8] ++ (zeros 8 ++ zeros 8 ++ ([0, 0, 0, 0] ++ [2, 0, 0, 0]) ++ zeros 8 ++ zeros 8)

/-- A 48-byte blob that is just the trailer marker plus a zeroed offset
table, used as a trailing-appended payload. -/
def blob48 : List Nat := TRAILER_BYTES ++ zeros 32

/-- A 56-byte file: `blob48` followed by the little-endian total length 48;
Strategy A rejects it (too short for a PE), Strategy B accepts. -/
def file56 : List Nat := blob48 ++ [48, 0, 0, 0, 0, 0, 0, 0]

/-- A 56-byte file whose trailing total-length field is zero. -/
def file56z : List Nat := TRAILER_BYTES ++ zeros 40

/-- A file whose embedded (trailing) payload is `badModulesBlob`: parsing
fails after extraction succeeds. -/
def fileBad : List Nat := badModulesBlob ++ [48, 0, 0, 0, 0, 0, 0, 0]

/-- A minimal module record with the given virtual path and no contents. -/
def demoModule (p : List Char) : ModuleRecord := ⟨p, [], none, none, 0, 0, 0, 0⟩

/-- Three records whose sanitized paths are `a.2.js`, `a.js`, `a.js`: the
collision suffix of the third coincides with the first record's path. -/
def demoCollisionParsed : ParsedStandalone :=
  ⟨[demoModule "a.2.js".data, demoModule "a.js".data, demoModule "a.js".data], 0, []⟩

/-- A one-module bundle whose contents pointer is zero-length. -/
def demoEmptyContentsParsed : ParsedStandalone :=
  ⟨[demoModule "a.js".data], 0, []⟩

/-- A clean path segment: nonempty, not `.`, not `..`, and slash-free.
Segments of a normalized absolute path all satisfy this. -/
def cleanSeg (s : List Char) : Prop :=
  s ≠ [] ∧ s ≠ ['.'] ∧ s ≠ dotdot ∧ '/' ∉ s

/-- A relative path the escape check can never reject: it does not start
with a separator and its slash-split has no `..` segment. -/
def relGood (rel : List Char) : Prop :=
  rel.headD ' ' ≠ '/' ∧ ∀ s ∈ splitP slashB rel, s ≠ dotdot

/-- The sequence of relative paths chosen by the writer's loop, with the
seen-map threaded through in record order. -/
def relPathsSpec : List ModuleRecord → Nat → UsedMap → List (List Char)
  | [], _, _ => []
  | m :: rest, index, used =>
    let chosen := chooseRelativePath m index used
    chosen.1 :: relPathsSpec rest (index + 1) chosen.2

/-- The manifest rows the loop produces, in record order. -/
def entriesSpec : List ModuleRecord → Nat → UsedMap → List ManifestEntry
  | [], _, _ => []
  | m :: rest, index, used =>
    let chosen := chooseRelativePath m index used
    mkEntry index m chosen.1 :: entriesSpec rest (index + 1) chosen.2

/-- The per-module writes the loop produces, in record order. -/
def writesSpec (out : List Char) : List ModuleRecord → Nat → UsedMap → List WriteItem
  | [], _, _ => []
  | m :: rest, index, used =>
    let chosen := chooseRelativePath m index used
    moduleWrites out m chosen.1 ++ writesSpec out rest (index + 1) chosen.2

/-- Nonempty pieces free of both separator characters, none equal to `..`:
the shape of the `normalized` segment list inside `chooseRelativePath`. -/
def goodPieces (parts : List (List Char)) : Prop :=
  parts ≠ [] ∧ ∀ q ∈ parts, q ≠ [] ∧ q ≠ dotdot ∧ ∀ c ∈ q, c ≠ '/' ∧ c ≠ '\\'

deriving instance DecidableEq for Except

/-- Keep predicate of `path.resolve` normalization: not empty, not `.`. -/
def keepSeg (s : List Char) : Bool := decide ¬(s = [] ∨ s = ['.'])

theorem splitP_ne_nil (p : Char → Bool) (l : List Char) : splitP p l ≠ [] := by
  cases l with
  | nil => simp [splitP]
  | cons c cs =>
    simp only [splitP]
    split <;> simp

theorem splitP_nosep (p : Char → Bool) (l : List Char) (h : ∀ c ∈ l, p c = false) :
    splitP p l = [l] := by
  induction l with
  | nil => rfl
  | cons c cs ih =>
    have hc : p c = false := h c (by simp)
    have ih' := ih (fun x hx => h x (List.mem_cons_of_mem _ hx))
    simp [splitP, hc, ih']

theorem splitP_sep_cons (p : Char → Bool) (c : Char) (hc : p c = true) (t : List Char) :
    splitP p (c :: t) = [] :: splitP p t := by
  simp [splitP, hc]

theorem splitP_append_sep (p : Char → Bool) (c : Char) (hc : p c = true) (a b : List Char) :
    splitP p (a ++ c :: b) = splitP p a ++ splitP p b := by
  induction a with
  | nil => simp [splitP, hc]
  | cons x xs ih =>
    obtain ⟨y, ys, hys⟩ := List.exists_cons_of_ne_nil (splitP_ne_nil p xs)
    by_cases hx : p x
    · simp [splitP, hx, ih]
    · simp only [List.cons_append, splitP, hx, Bool.false_eq_true, if_false, List.append_eq]
      rw [ih, hys]
      simp

theorem mem_splitP (p : Char → Bool) (l : List Char) :
    ∀ s ∈ splitP p l, ∀ c ∈ s, p c = false := by
  induction l with
  | nil =>
    intro s hs
    simp [splitP] at hs
    subst hs; simp
  | cons x xs ih =>
    intro s hs
    simp only [splitP] at hs
    by_cases hx : p x
    · rw [if_pos hx] at hs
      rcases List.mem_cons.mp hs with h | h
      · subst h; simp
      · exact ih s h
    · rw [if_neg hx] at hs
      obtain ⟨y, ys, hys⟩ := List.exists_cons_of_ne_nil (splitP_ne_nil p xs)
      rw [hys] at hs
      simp only [List.headD, List.tail] at hs
      rcases List.mem_cons.mp hs with h | h
      · subst h
        intro c hc
        rcases List.mem_cons.mp hc with h | h
        · subst h; simpa using hx
        · exact ih y (by rw [hys]; simp) c h
      · exact ih s (by rw [hys]; simp [h])

theorem joinSep_ne_nil (c : Char) (x : List Char) (hx : x ≠ []) (rest : List (List Char)) :
    joinSep c (x :: rest) ≠ [] := by
  cases rest with
  | nil => simpa [joinSep]
  | cons y ys =>
    cases x with
    | nil => exact absurd rfl hx
    | cons a as => simp [joinSep]

theorem joinSep_headD (c : Char) (x : List Char) (hx : x ≠ []) (rest : List (List Char)) (d : Char) :
    (joinSep c (x :: rest)).headD d = x.headD d := by
  cases rest with
  | nil => rfl
  | cons y ys =>
    cases x with
    | nil => exact absurd rfl hx
    | cons a as => simp [joinSep]

theorem joinSep_append (c : Char) (a b : List (List Char)) (ha : a ≠ []) (hb : b ≠ []) :
    joinSep c (a ++ b) = joinSep c a ++ c :: joinSep c b := by
  induction a with
  | nil => exact absurd rfl ha
  | cons x xs ih =>
    cases xs with
    | nil =>
      cases b with
      | nil => exact absurd rfl hb
      | cons y ys => simp [joinSep]
    | cons x2 xs2 =>
      have h := ih (by simp)
      have h2 : (x :: x2 :: xs2) ++ b = x :: ((x2 :: xs2) ++ b) := rfl
      rw [h2]
      have h3 : ∃ z zs, (x2 :: xs2) ++ b = z :: zs := ⟨x2, xs2 ++ b, rfl⟩
      obtain ⟨z, zs, hz⟩ := h3
      rw [hz, joinSep, ← hz, h, joinSep]
      simp

theorem splitP_joinSep (p : Char → Bool) (c : Char) (hc : p c = true) (parts : List (List Char))
    (hne : parts ≠ []) (hp : ∀ q ∈ parts, ∀ ch ∈ q, p ch = false) :
    splitP p (joinSep c parts) = parts := by
  induction parts with
  | nil => exact absurd rfl hne
  | cons x xs ih =>
    cases xs with
    | nil => exact splitP_nosep p x (hp x (by simp))
    | cons y ys =>
      rw [joinSep, splitP_append_sep p c hc,
        splitP_nosep p x (hp x (by simp)),
        ih (by simp) (fun q hq => hp q (by simp [hq]))]
      rfl

theorem normFold_no_dotdot (l : List (List Char)) (hl : ∀ s ∈ l, s ≠ dotdot) :
    ∀ acc, normFold acc l = acc ++ l.filter keepSeg := by
  induction l with
  | nil => intro acc; simp [normFold]
  | cons s ss ih =>
    intro acc
    have hs : s ≠ dotdot := hl s (by simp)
    have hrest : ∀ q ∈ ss, q ≠ dotdot := fun q hq => hl q (by simp [hq])
    have h1 : normFold acc (s :: ss) = normFold (normStep acc s) ss := rfl
    rw [h1, ih hrest]
    by_cases h : s = [] ∨ s = ['.']
    · have hk : keepSeg s = false := by simp [keepSeg, h]
      rw [normStep, if_pos h]
      simp [List.filter, hk]
    · have hk : keepSeg s = true := by simp [keepSeg, h]
      rw [normStep, if_neg h, if_neg hs]
      simp [List.filter, hk]

theorem normFold_clean (l : List (List Char)) (hl : ∀ s ∈ l, '/' ∉ s) :
    ∀ acc, (∀ s ∈ acc, cleanSeg s) → ∀ s ∈ normFold acc l, cleanSeg s := by
  induction l with
  | nil => intro acc hacc; simpa [normFold] using hacc
  | cons s ss ih =>
    intro acc hacc t ht
    have h1 : normFold acc (s :: ss) = normFold (normStep acc s) ss := rfl
    rw [h1] at ht
    refine ih (fun q hq => hl q (by simp [hq])) _ ?_ t ht
    intro q hq
    unfold normStep at hq
    by_cases h : s = [] ∨ s = ['.']
    · rw [if_pos h] at hq
      exact hacc q hq
    · rw [if_neg h] at hq
      by_cases h2 : s = dotdot
      · rw [if_pos h2] at hq
        exact hacc q ((List.dropLast_sublist acc).subset hq)
      · rw [if_neg h2] at hq
        rcases List.mem_append.mp hq with h3 | h3
        · exact hacc q h3
        · rcases List.mem_singleton.mp h3 with rfl
          exact ⟨fun he => h (Or.inl he), fun he => h (Or.inr he), h2, hl q (by simp)⟩

theorem getLast?_joinSep_ne_slash (segs : List (List Char)) (hne : segs ≠ [])
    (hcl : ∀ s ∈ segs, s ≠ [] ∧ '/' ∉ s) :
    ∀ d, (joinSep '/' segs).getLast? = some d → d ≠ '/' := by
  induction segs with
  | nil => exact absurd rfl hne
  | cons x xs ih =>
    intro d hd
    cases xs with
    | nil =>
      have hx := hcl x (by simp)
      have hmem : d ∈ x := by
        have he : (joinSep '/' [x]) = x := rfl
        rw [he] at hd
        exact List.mem_of_mem_getLast? (Option.mem_def.mpr hd)
      intro he; subst he; exact hx.2 hmem
    | cons y ys =>
      have hy := hcl y (by simp)
      have hjne : joinSep '/' (y :: ys) ≠ [] := joinSep_ne_nil '/' y hy.1 ys
      rw [joinSep, List.getLast?_append_cons] at hd
      obtain ⟨z, zs, hz⟩ := List.exists_cons_of_ne_nil hjne
      rw [hz, List.getLast?_cons_cons, ← hz] at hd
      exact ih (by simp) (fun s hs => hcl s (by simp [hs])) d hd

theorem ensureTrailingSep_renderAbs (segs : List (List Char)) (hne : segs ≠ [])
    (hcl : ∀ s ∈ segs, s ≠ [] ∧ '/' ∉ s) :
    ensureTrailingSep (renderAbs segs) = renderAbs segs ++ ['/'] := by
  unfold ensureTrailingSep
  rw [if_neg]
  intro hlast
  obtain ⟨x, xs, rfl⟩ := List.exists_cons_of_ne_nil hne
  have hjne : joinSep '/' (x :: xs) ≠ [] := joinSep_ne_nil '/' x (hcl x (by simp)).1 xs
  unfold renderAbs at hlast
  obtain ⟨z, zs, hz⟩ := List.exists_cons_of_ne_nil hjne
  rw [hz, List.getLast?_cons_cons, ← hz] at hlast
  exact getLast?_joinSep_ne_slash (x :: xs) (by simp) hcl '/' hlast rfl

theorem isPrefixOf_append_self (l t : List Char) : l.isPrefixOf (l ++ t) = true := by
  induction l with
  | nil => simp [List.isPrefixOf]
  | cons a as ih => simp [List.isPrefixOf, ih]

theorem slashB_eq_false_of_clean (q : List Char) (hq : '/' ∉ q) :
    ∀ ch ∈ q, slashB ch = false := by
  intro ch hch
  simp only [slashB, decide_eq_false_iff_not]
  intro he; subst he; exact hq hch

theorem normalizeAbs_append_rel (segs : List (List Char)) (hcl : ∀ s ∈ segs, cleanSeg s)
    (rel : List Char) (hrel : ∀ s ∈ splitP slashB rel, s ≠ dotdot) :
    normalizeAbs (renderAbs segs ++ '/' :: rel) =
      renderAbs (segs ++ (splitP slashB rel).filter keepSeg) := by
  unfold normalizeAbs
  have hsl : slashB '/' = true := by decide
  have h1 : renderAbs segs ++ '/' :: rel = '/' :: (joinSep '/' segs ++ '/' :: rel) := rfl
  rw [h1, splitP_sep_cons slashB '/' hsl, splitP_append_sep slashB '/' hsl]
  cases segs with
  | nil =>
    have h2 : joinSep '/' ([] : List (List Char)) = [] := rfl
    have h3 : splitP slashB [] = [[]] := rfl
    rw [h2, h3]
    have h4 : normFold [] ([] :: ([[]] ++ splitP slashB rel)) =
        normFold [] (splitP slashB rel) := rfl
    rw [h4, normFold_no_dotdot _ hrel]
  | cons s ss =>
    rw [splitP_joinSep slashB '/' hsl (s :: ss) (by simp)
      (fun q hq => slashB_eq_false_of_clean q (hcl q hq).2.2.2)]
    have h5 : normFold [] ([] :: ((s :: ss) ++ splitP slashB rel)) =
        normFold [] ((s :: ss) ++ splitP slashB rel) := rfl
    rw [h5]
    have h6 : normFold [] ((s :: ss) ++ splitP slashB rel) =
        normFold (normFold [] (s :: ss)) (splitP slashB rel) := by
      unfold normFold
      exact List.foldl_append normStep [] (s :: ss) (splitP slashB rel)
    rw [h6, normFold_no_dotdot (s :: ss) (fun q hq => (hcl q hq).2.2.1)]
    have h7 : (s :: ss).filter keepSeg = s :: ss := by
      apply List.filter_eq_self.mpr
      intro q hq
      have := hcl q hq
      simp [keepSeg, this.1, this.2.1]
    rw [h7, normFold_no_dotdot _ hrel]
    simp

theorem insideCheck_resolve (segs : List (List Char)) (hcl : ∀ s ∈ segs, cleanSeg s)
    (rel : List Char) (hrel : relGood rel) :
    insideCheckB (renderAbs segs) (ensureTrailingSep (renderAbs segs))
      (pathResolve (renderAbs segs) rel) = true := by
  unfold pathResolve
  rw [if_neg hrel.1, normalizeAbs_append_rel segs hcl rel hrel.2]
  cases hr : (splitP slashB rel).filter keepSeg with
  | nil => simp [insideCheckB]
  | cons r rs =>
    cases segs with
    | nil =>
      have h1 : renderAbs ([] : List (List Char)) = ['/'] := rfl
      have h2 : ensureTrailingSep ['/'] = ['/'] := by decide
      rw [h1, h2]
      unfold insideCheckB renderAbs
      simp [List.isPrefixOf]
    | cons s ss =>
      rw [ensureTrailingSep_renderAbs (s :: ss) (by simp)
        (fun q hq => ⟨(hcl q hq).1, (hcl q hq).2.2.2⟩)]
      have h3 : renderAbs ((s :: ss) ++ r :: rs) =
          (renderAbs (s :: ss) ++ ['/']) ++ joinSep '/' (r :: rs) := by
        unfold renderAbs
        rw [joinSep_append '/' (s :: ss) (r :: rs) (by simp) (by simp)]
        simp
      rw [h3]
      unfold insideCheckB
      rw [isPrefixOf_append_self]
      simp

theorem char_ofNat_digit_toNat (k : Nat) (h : k < 10) :
    (Char.ofNat (48 + k)).toNat = 48 + k := by
  have hv : (48 + k).isValidChar := Or.inl (by omega)
  simp [Char.ofNat, hv, Char.ofNatAux, Char.toNat, UInt32.toNat, BitVec.toNat_ofNatLt]

theorem natToDecAux_digits (fuel : Nat) :
    ∀ n, ∀ c ∈ natToDecAux fuel n, 48 ≤ c.toNat ∧ c.toNat ≤ 57 := by
  induction fuel with
  | zero => intro n c hc; simp [natToDecAux] at hc
  | succ f ih =>
    intro n c hc
    unfold natToDecAux at hc
    split at hc
    · next h =>
      rcases List.mem_singleton.mp hc with rfl
      rw [char_ofNat_digit_toNat n h]
      omega
    · next h =>
      rcases List.mem_append.mp hc with h2 | h2
      · exact ih (n / 10) c h2
      · rcases List.mem_singleton.mp h2 with rfl
        rw [char_ofNat_digit_toNat (n % 10) (Nat.mod_lt _ (by omega))]
        omega

theorem natToDec_digits (n : Nat) : ∀ c ∈ natToDec n, 48 ≤ c.toNat ∧ c.toNat ≤ 57 :=
  natToDecAux_digits (n + 1) n

theorem natToDec_ne_nil (n : Nat) : natToDec n ≠ [] := by
  unfold natToDec natToDecAux
  split <;> simp

theorem natToDec_not_sep (n : Nat) : ∀ c ∈ natToDec n, c ≠ '/' ∧ c ≠ '\\' ∧ c ≠ '.' := by
  intro c hc
  have h := natToDec_digits n c hc
  refine ⟨?_, ?_, ?_⟩ <;> intro he <;> subst he <;> revert h <;> decide

theorem splitP_piece_subset (p : Char → Bool) (l : List Char) :
    ∀ s ∈ splitP p l, ∀ c ∈ s, c ∈ l := by
  induction l with
  | nil =>
    intro s hs
    simp [splitP] at hs
    subst hs; simp
  | cons x xs ih =>
    intro s hs
    simp only [splitP] at hs
    by_cases hx : p x
    · rw [if_pos hx] at hs
      rcases List.mem_cons.mp hs with h | h
      · subst h; simp
      · intro c hc; exact List.mem_cons_of_mem _ (ih s h c hc)
    · rw [if_neg hx] at hs
      obtain ⟨y, ys, hys⟩ := List.exists_cons_of_ne_nil (splitP_ne_nil p xs)
      rw [hys] at hs
      simp only [List.headD, List.tail] at hs
      rcases List.mem_cons.mp hs with h | h
      · subst h
        intro c hc
        rcases List.mem_cons.mp hc with h | h
        · subst h; simp
        · exact List.mem_cons_of_mem _ (ih y (by rw [hys]; simp) c h)
      · intro c hc
        exact List.mem_cons_of_mem _ (ih s (by rw [hys]; simp [h]) c hc)

theorem fallbackExt_not_sep (loader : Nat) :
    ∀ c ∈ fallbackExt loader, c ≠ '/' ∧ c ≠ '\\' := by
  unfold fallbackExt
  cases h : loaderExtTable.get? loader with
  | none =>
    intro c hc
    simp at hc
    rcases hc with rfl | rfl | rfl | rfl <;> decide
  | some x =>
    have hx : x ∈ loaderExtTable := List.get?_mem h
    have hall : ∀ y ∈ loaderExtTable, ∀ c ∈ y, c ≠ '/' ∧ c ≠ '\\' := by decide
    intro c hc
    exact hall x hx c hc

theorem padStart4_mem (s : List Char) (c : Char) (hc : c ∈ padStart4 s) :
    c = '0' ∨ c ∈ s := by
  unfold padStart4 at hc
  rcases List.mem_append.mp hc with h | h
  · exact Or.inl (List.eq_of_mem_replicate h)
  · exact Or.inr h

theorem fallbackName_props (loader index : Nat) :
    fallbackName loader index ≠ [] ∧ (fallbackName loader index).headD ' ' = 'm' ∧
      (∀ c ∈ fallbackName loader index, c ≠ '/' ∧ c ≠ '\\') ∧
      fallbackName loader index ≠ dotdot := by
  have hm : "module-".data = 'm' :: "odule-".data := rfl
  refine ⟨?_, ?_, ?_, ?_⟩
  · unfold fallbackName; rw [hm]; simp
  · unfold fallbackName; rw [hm]; rfl
  · intro c hc
    unfold fallbackName at hc
    rcases List.mem_append.mp hc with h | h
    · rcases List.mem_append.mp h with h2 | h2
      · have hmod : ∀ d ∈ "module-".data, d ≠ '/' ∧ d ≠ '\\' := by decide
        exact hmod c h2
      · rcases padStart4_mem _ c h2 with rfl | h3
        · decide
        · have := natToDec_not_sep index c h3
          exact ⟨this.1, this.2.1⟩
    · exact fallbackExt_not_sep loader c h
  · unfold fallbackName; rw [hm]; simp [dotdot]

theorem preSanitize_no_backslash (orig : List Char) : '\\' ∉ preSanitize orig := by
  unfold preSanitize
  intro h
  have h3 := (List.dropWhile_sublist _).subset h
  rcases List.mem_map.mp h3 with ⟨c, _, hc⟩
  by_cases h4 : c = '\\' <;> simp [h4] at hc

theorem sanitize_goodPieces (orig : List Char) (h : sanitizeModulePath orig ≠ []) :
    ∃ parts, goodPieces parts ∧ sanitizeModulePath orig = joinSep '/' parts := by
  refine ⟨(splitP slashB (preSanitize orig)).filter
    (fun part => ¬(part = [] ∨ part = dotdot)), ⟨?_, ?_⟩, rfl⟩
  · intro hnil
    unfold sanitizeModulePath at h
    rw [hnil] at h
    exact h rfl
  · intro q hq
    have hq2 := List.mem_filter.mp hq
    have hpred : ¬(q = [] ∨ q = dotdot) := of_decide_eq_true hq2.2
    refine ⟨fun he => hpred (Or.inl he), fun he => hpred (Or.inr he), ?_⟩
    intro c hc
    constructor
    · intro he; subst he
      have := mem_splitP slashB (preSanitize orig) q hq2.1 '/' hc
      simp [slashB] at this
    · intro he; subst he
      exact preSanitize_no_backslash orig (splitP_piece_subset slashB _ q hq2.1 '\\' hc)

theorem goodPieces_sepB_free (parts : List (List Char)) (hg : goodPieces parts) :
    ∀ q ∈ parts, ∀ ch ∈ q, sepB ch = false := by
  intro q hq ch hch
  have h := (hg.2 q hq).2.2 ch hch
  simp [sepB, h.1, h.2]

theorem chooseFinalPathTail_of_good (cand : List Char) (loader index : Nat)
    (parts : List (List Char)) (hg : goodPieces parts) (hc : cand = joinSep '/' parts) :
    chooseFinalPathTail cand loader index = joinSep '/' parts := by
  obtain ⟨hne, hprops⟩ := hg
  obtain ⟨q, qs, rfl⟩ := List.exists_cons_of_ne_nil hne
  obtain ⟨hqne, hqdd, hqsep⟩ := hprops q (by simp)
  obtain ⟨a, as, ha⟩ := List.exists_cons_of_ne_nil hqne
  have hcand_ne : cand ≠ [] := by rw [hc]; exact joinSep_ne_nil '/' q hqne qs
  have hhd : cand.headD ' ' = a := by
    rw [hc, joinSep_headD '/' q hqne qs ' ', ha]; rfl
  have haprop := hqsep a (by rw [ha]; simp)
  have hasep : sepB a = false := by simp [sepB, haprop.1, haprop.2]
  obtain ⟨a', t, hat⟩ := List.exists_cons_of_ne_nil hcand_ne
  have haa : a' = a := by rw [hat] at hhd; simpa using hhd
  subst haa
  have h1 : cand.dropWhile sepB = cand := by
    rw [hat, List.dropWhile_cons, if_neg (by simp [hasep])]
  have h2 : ¬(cand = [] ∨ isAbsolutePosix cand = true) := by
    push_neg
    refine ⟨hcand_ne, ?_⟩
    simp only [isAbsolutePosix, hhd]
    simp [haprop.1]
  have h3 : splitP sepB cand = q :: qs := by
    rw [hc]
    exact splitP_joinSep sepB '/' (by decide) (q :: qs) (by simp)
      (goodPieces_sepB_free (q :: qs) ⟨by simp, hprops⟩)
  have h4 : (q :: qs).filter (fun part => part ≠ []) = q :: qs := by
    apply List.filter_eq_self.mpr
    intro p hp
    have := (hprops p hp).1
    simpa using this
  simp only [chooseFinalPathTail, h1]
  rw [if_neg h2, h3, h4, ← hc, if_neg hcand_ne]

theorem chooseFinalPath_spec (m : ModuleRecord) (index : Nat) :
    ∃ parts, goodPieces parts ∧ chooseFinalPath m index = joinSep '/' parts := by
  by_cases h0 : sanitizeModulePath m.originalPath = []
  · have hfb := fallbackName_props m.loader index
    refine ⟨[fallbackName m.loader index], ⟨by simp, ?_⟩, ?_⟩
    · intro q hq
      rcases List.mem_singleton.mp hq with rfl
      exact ⟨hfb.1, hfb.2.2.2, hfb.2.2.1⟩
    · have he : chooseFinalPath m index =
          chooseFinalPathTail (fallbackName m.loader index) m.loader index := by
        simp [chooseFinalPath, h0]
      rw [he]
      exact chooseFinalPathTail_of_good _ _ _ [fallbackName m.loader index]
        ⟨by simp, fun q hq => by
          rcases List.mem_singleton.mp hq with rfl
          exact ⟨hfb.1, hfb.2.2.2, hfb.2.2.1⟩⟩ rfl
  · obtain ⟨parts, hg, heq⟩ := sanitize_goodPieces _ h0
    refine ⟨parts, hg, ?_⟩
    have he : chooseFinalPath m index =
        chooseFinalPathTail (sanitizeModulePath m.originalPath) m.loader index := by
      simp [chooseFinalPath, h0]
    rw [he]
    exact chooseFinalPathTail_of_good _ _ _ parts hg heq

theorem take_len_add (a b : List Char) (n : Nat) :
    (a ++ b).take (a.length + n) = a ++ b.take n := by
  induction a with
  | nil => simp
  | cons x xs ih =>
    have h : (x :: xs).length + n = (xs.length + n) + 1 := by simp; omega
    rw [h, List.cons_append, List.take_succ_cons, ih]
    rfl

theorem lastDotIdx_lt (b : List Char) (i : Nat) (h : lastDotIdx b = some i) : i < b.length := by
  induction b generalizing i with
  | nil => simp [lastDotIdx] at h
  | cons c cs ih =>
    cases h2 : lastDotIdx cs with
    | some j =>
      simp only [lastDotIdx, h2] at h
      injection h with h
      subst h
      have := ih j h2
      simp only [List.length_cons]
      omega
    | none =>
      simp only [lastDotIdx, h2] at h
      by_cases hc : c = '.'
      · rw [if_pos hc] at h
        injection h with h
        subst h
        simp
      · rw [if_neg hc] at h
        exact absurd h (by simp)

theorem extname_spec (s : List Char) :
    extname s = [] ∨ ∃ j, 1 ≤ j ∧ j < ((splitP slashB s).getLastD []).length ∧
      extname s = ((splitP slashB s).getLastD []).drop j := by
  cases h : lastDotIdx ((splitP slashB s).getLastD []) with
  | none => exact Or.inl (by simp only [extname, h])
  | some i =>
    cases i with
    | zero => exact Or.inl (by simp only [extname, h])
    | succ i0 =>
      by_cases hb : (splitP slashB s).getLastD [] = dotdot
      · exact Or.inl (by simp only [extname, h, if_pos hb])
      · exact Or.inr ⟨i0 + 1, by omega, lastDotIdx_lt _ _ h,
          by simp only [extname, h, if_neg hb]⟩

theorem relGood_of_goodPieces (parts : List (List Char)) (hg : goodPieces parts) :
    relGood (joinSep '/' parts) := by
  obtain ⟨hne, hprops⟩ := hg
  obtain ⟨q, qs, rfl⟩ := List.exists_cons_of_ne_nil hne
  obtain ⟨hqne, _, hqsep⟩ := hprops q (by simp)
  obtain ⟨a, as, ha⟩ := List.exists_cons_of_ne_nil hqne
  constructor
  · rw [joinSep_headD '/' q hqne qs ' ', ha]
    have := hqsep a (by rw [ha]; simp)
    simpa using this.1
  · rw [splitP_joinSep slashB '/' (by decide) (q :: qs) (by simp) ?hfree]
    case hfree =>
      intro p hp ch hch
      have := (hprops p hp).2.2 ch hch
      simp [slashB, this.1]
    intro p hp
    exact (hprops p hp).2.1

theorem joinSep_concat (c : Char) (ps : List (List Char)) (b : List Char) (hps : ps ≠ []) :
    joinSep c (ps ++ [b]) = joinSep c ps ++ c :: b := by
  rw [joinSep_append c ps [b] hps (by simp)]
  rfl

theorem suffixed_good (parts : List (List Char)) (hg : goodPieces parts) (count : Nat) :
    ∃ parts2, goodPieces parts2 ∧
      (joinSep '/' parts).take ((joinSep '/' parts).length -
          (extname (joinSep '/' parts)).length) ++
        '.' :: natToDec count ++ extname (joinSep '/' parts) = joinSep '/' parts2 := by
  obtain ⟨hne, hprops⟩ := hg
  have hparts := (List.dropLast_append_getLast hne).symm
  set ps := parts.dropLast with hps
  set b := parts.getLast hne with hbdef
  have hb := hprops b (by rw [hparts]; simp)
  have hDne := natToDec_ne_nil count
  have hDfree := natToDec_not_sep count
  have hsplit : splitP slashB (joinSep '/' parts) = parts := by
    apply splitP_joinSep slashB '/' (by decide) parts hne
    intro q hq ch hch
    have := (hprops q hq).2.2 ch hch
    simp [slashB, this.1]
  have hlastD : (splitP slashB (joinSep '/' parts)).getLastD [] = b := by
    rw [hsplit, hparts]
    exact List.getLastD_concat [] b ps
  have hpsgood : ∀ q ∈ ps, q ≠ [] ∧ q ≠ dotdot ∧ ∀ ch ∈ q, ch ≠ '/' ∧ ch ≠ '\\' := by
    intro q hq
    exact hprops q ((List.dropLast_sublist parts).subset hq)
  rcases extname_spec (joinSep '/' parts) with hext | ⟨j, hj1, hjlt, hext⟩
  · -- no extension: the suffix lands after the last segment
    refine ⟨ps ++ [b ++ '.' :: natToDec count], ⟨by simp, ?_⟩, ?_⟩
    · intro q hq
      rcases List.mem_append.mp hq with h | h
      · exact hpsgood q h
      · rcases List.mem_singleton.mp h with rfl
        refine ⟨by simp [hb.1], ?_, ?_⟩
        · intro heq
          have hlen := congrArg List.length heq
          simp [dotdot] at hlen
          have hb1 : 1 ≤ b.length := List.length_pos.mpr hb.1
          have hD1 : 1 ≤ (natToDec count).length := List.length_pos.mpr hDne
          omega
        · intro ch hch
          rcases List.mem_append.mp hch with h2 | h2
          · exact hb.2.2 ch h2
          · rcases List.mem_cons.mp h2 with rfl | h3
            · constructor <;> decide
            · have := hDfree ch h3
              exact ⟨this.1, this.2.1⟩
    · rw [hext]
      simp only [List.length_nil, Nat.sub_zero, List.take_length, List.append_nil]
      cases hpsc : ps with
      | nil =>
        rw [hparts, hpsc]
        rfl
      | cons p ps' =>
        rw [hparts, hpsc, joinSep_concat '/' (p :: ps') b (by simp),
          joinSep_concat '/' (p :: ps') (b ++ '.' :: natToDec count) (by simp)]
        simp
  · -- extension present: the counter is inserted before it, inside the last segment
    rw [hlastD] at hjlt hext
    refine ⟨ps ++ [b.take j ++ '.' :: natToDec count ++ b.drop j], ⟨by simp, ?_⟩, ?_⟩
    · intro q hq
      rcases List.mem_append.mp hq with h | h
      · exact hpsgood q h
      · rcases List.mem_singleton.mp h with rfl
        have htne : b.take j ≠ [] := by
          have hlt : 0 < (b.take j).length := by
            rw [List.length_take]
            omega
          exact List.length_pos.mp hlt
        refine ⟨by simp [htne], ?_, ?_⟩
        · intro heq
          have hlen := congrArg List.length heq
          simp [dotdot] at hlen
          have hD1 : 1 ≤ (natToDec count).length := List.length_pos.mpr hDne
          omega
        · intro ch hch
          rcases List.mem_append.mp hch with h2 | h2
          · rcases List.mem_append.mp h2 with h3 | h3
            · exact hb.2.2 ch ((List.take_subset j b) h3)
            · rcases List.mem_cons.mp h3 with rfl | h4
              · constructor <;> decide
              · have := hDfree ch h4
                exact ⟨this.1, this.2.1⟩
          · exact hb.2.2 ch ((List.drop_subset j b) h2)
    · rw [hext]
      have hdlen : (List.drop j b).length = b.length - j := List.length_drop j b
      cases hpsc : ps with
      | nil =>
        have hfp : joinSep '/' parts = b := by rw [hparts, hpsc]; rfl
        rw [hfp, hdlen]
        have harith : b.length - (b.length - j) = j := by omega
        rw [harith]
        have hjoin : joinSep '/' ([] ++ [b.take j ++ '.' :: natToDec count ++ b.drop j]) =
            b.take j ++ '.' :: natToDec count ++ b.drop j := rfl
        rw [hjoin]
      | cons p ps' =>
        have hfp : joinSep '/' parts = joinSep '/' (p :: ps') ++ '/' :: b := by
          rw [hparts, hpsc, joinSep_concat '/' (p :: ps') b (by simp)]
        rw [hfp, hdlen]
        have hlen2 : (joinSep '/' (p :: ps') ++ '/' :: b).length =
            (joinSep '/' (p :: ps')).length + (1 + b.length) := by
          simp; omega
        rw [hlen2]
        have harith : (joinSep '/' (p :: ps')).length + (1 + b.length) - (b.length - j) =
            (joinSep '/' (p :: ps')).length + (1 + j) := by omega
        rw [harith, take_len_add]
        have htk : ('/' :: b).take (1 + j) = '/' :: b.take j := by
          have : (1 : Nat) + j = j + 1 := by omega
          rw [this, List.take_succ_cons]
        rw [htk, joinSep_concat '/' (p :: ps') _ (by simp)]
        simp

theorem chooseRel_relGood (m : ModuleRecord) (index : Nat) (used : UsedMap) :
    relGood (chooseRelativePath m index used).1 := by
  obtain ⟨parts, hg, heq⟩ := chooseFinalPath_spec m index
  unfold chooseRelativePath
  cases hmg : mapGet used ((chooseFinalPath m index).map Char.toLower) with
  | none =>
    simp only [hmg]
    rw [heq]
    exact relGood_of_goodPieces parts hg
  | some cnt =>
    simp only [hmg]
    obtain ⟨parts2, hg2, heq2⟩ := suffixed_good parts hg (cnt + 1)
    rw [heq, heq2]
    exact relGood_of_goodPieces parts2 hg2

theorem writeModuleChecked_ok (segs : List (List Char)) (hcl : ∀ s ∈ segs, cleanSeg s)
    (m : ModuleRecord) (index : Nat) (rel : List Char) (hrel : relGood rel) :
    writeModuleChecked (renderAbs segs) (ensureTrailingSep (renderAbs segs)) m index rel =
      .ok (moduleWrites (renderAbs segs) m rel, mkEntry index m rel) := by
  unfold writeModuleChecked
  rw [if_pos (insideCheck_resolve segs hcl rel hrel)]

theorem processModules_spec (segs : List (List Char)) (hcl : ∀ s ∈ segs, cleanSeg s) :
    ∀ (mods : List ModuleRecord) (index : Nat) (used : UsedMap),
    processModules (renderAbs segs) (ensureTrailingSep (renderAbs segs)) mods index used =
      (writesSpec (renderAbs segs) mods index used, entriesSpec mods index used, none) := by
  intro mods
  induction mods with
  | nil => intro index used; rfl
  | cons m rest ih =>
    intro index used
    have hok := writeModuleChecked_ok segs hcl m index (chooseRelativePath m index used).1
      (chooseRel_relGood m index used)
    simp only [processModules, writesSpec, entriesSpec, hok, ih]

theorem outputDir_segs_clean (outputDir : List Char) :
    ∀ s ∈ normFold [] (splitP slashB outputDir), cleanSeg s := by
  apply normFold_clean
  · intro s hs hmem
    have := mem_splitP slashB outputDir s hs '/' hmem
    simp [slashB] at this
  · simp

theorem writeOutputs_spec (parsed : ParsedStandalone) (outputDir : List Char) :
    writeOutputs parsed outputDir =
      (writesSpec (normalizeAbs outputDir) parsed.modules 0 [] ++
        (if parsed.compileExecArgv = [] then [] else
          [WriteItem.execArgvFile
            (pathResolve (normalizeAbs outputDir) "__compile_exec_argv.txt".data)
            (parsed.compileExecArgv ++ ['\n'])]) ++
        [WriteItem.manifestFile (pathResolve (normalizeAbs outputDir) "metadata.json".data)
          (entriesSpec parsed.modules 0 []) parsed.entryPointId parsed.compileExecArgv], none) := by
  have hres : normalizeAbs outputDir = renderAbs (normFold [] (splitP slashB outputDir)) := rfl
  unfold writeOutputs
  rw [hres]
  simp only [processModules_spec (normFold [] (splitP slashB outputDir))
    (outputDir_segs_clean outputDir)]

theorem contentWrites_moduleWrites_append (out : List Char) (m : ModuleRecord)
    (rel : List Char) (tail : List WriteItem) :
    contentWrites (moduleWrites out m rel ++ tail) =
      (pathResolve out rel, m.contents) :: contentWrites tail := by
  unfold moduleWrites contentWrites
  cases m.sourcemap <;> cases m.bytecode <;> simp

theorem contentWrites_writesSpec_len (out : List Char) :
    ∀ (mods : List ModuleRecord) (index : Nat) (used : UsedMap),
    (contentWrites (writesSpec out mods index used)).length = mods.length := by
  intro mods
  induction mods with
  | nil => intro index used; rfl
  | cons m rest ih =>
    intro index used
    simp only [writesSpec, contentWrites_moduleWrites_append, List.length_cons, ih]

theorem contentWrites_writesSpec_mem (out : List Char) :
    ∀ (mods : List ModuleRecord) (index : Nat) (used : UsedMap),
    ∀ pc ∈ contentWrites (writesSpec out mods index used),
      ∃ m' i' used', pc = (pathResolve out (chooseRelativePath m' i' used').1, m'.contents) := by
  intro mods
  induction mods with
  | nil => intro index used pc hpc; simp [writesSpec, contentWrites] at hpc
  | cons m rest ih =>
    intro index used pc hpc
    rw [writesSpec, contentWrites_moduleWrites_append] at hpc
    rcases List.mem_cons.mp hpc with h | h
    · exact ⟨m, index, used, h⟩
    · exact ih _ _ pc h

theorem entriesSpec_length :
    ∀ (mods : List ModuleRecord) (index : Nat) (used : UsedMap),
    (entriesSpec mods index used).length = mods.length := by
  intro mods
  induction mods with
  | nil => intro index used; rfl
  | cons m rest ih =>
    intro index used
    simp only [entriesSpec, List.length_cons, ih]

theorem entriesSpec_get? :
    ∀ (mods : List ModuleRecord) (index : Nat) (used : UsedMap) (j : Nat) (e : ManifestEntry),
    (entriesSpec mods index used).get? j = some e →
      ∃ mm rel, mods.get? j = some mm ∧ e = mkEntry (index + j) mm rel := by
  intro mods
  induction mods with
  | nil => intro index used j e he; simp [entriesSpec] at he
  | cons m rest ih =>
    intro index used j e he
    cases j with
    | zero =>
      simp only [entriesSpec, List.get?] at he
      injection he with he
      exact ⟨m, (chooseRelativePath m index used).1, rfl, by rw [← he]; simp⟩
    | succ j0 =>
      simp only [entriesSpec, List.get?] at he
      obtain ⟨mm, rel, hget, hmk⟩ := ih (index + 1) (chooseRelativePath m index used).2 j0 e he
      refine ⟨mm, rel, by simpa using hget, ?_⟩
      rw [hmk]
      have : index + 1 + j0 = index + (j0 + 1) := by omega
      rw [this]

theorem writesSpec_content_of_get? (out : List Char) :
    ∀ (mods : List ModuleRecord) (index : Nat) (used : UsedMap) (j : Nat) (mm : ModuleRecord),
    mods.get? j = some mm →
      ∃ rel, WriteItem.content (pathResolve out rel) mm.contents ∈ writesSpec out mods index used := by
  intro mods
  induction mods with
  | nil => intro index used j mm h; simp at h
  | cons m rest ih =>
    intro index used j mm h
    cases j with
    | zero =>
      simp only [List.get?] at h
      injection h with h
      subst h
      refine ⟨(chooseRelativePath m index used).1, ?_⟩
      rw [writesSpec]
      apply List.mem_append_left
      unfold moduleWrites
      simp
    | succ j0 =>
      simp only [List.get?] at h
      obtain ⟨rel, hmem⟩ := ih (index + 1) (chooseRelativePath m index used).2 j0 mm h
      exact ⟨rel, by rw [writesSpec]; exact List.mem_append_right _ hmem⟩

theorem readPointerFromPayload_ok_inv (bytes : List Nat) (o : Nat) (ptr : StringPointer)
    (h : readPointerFromPayload bytes o = .ok ptr) :
    ptr = ⟨readU32LE bytes o, readU32LE bytes (o + 4)⟩ := by
  unfold readPointerFromPayload at h
  split at h
  · exact absurd h (by simp)
  · injection h with h
    exact h.symm

theorem slicePointer_zero (bytes : List Nat) (ptr : StringPointer) (h : ptr.length = 0) :
    slicePointer bytes ptr = .ok [] := by
  unfold slicePointer
  rw [if_pos h]

theorem slicePointer_ok_pos (bytes : List Nat) (ptr : StringPointer) (s : List Nat)
    (hpos : 0 < ptr.length) (h : slicePointer bytes ptr = .ok s) :
    s = (bytes.drop ptr.offset).take ptr.length := by
  unfold slicePointer at h
  rw [if_neg (by omega)] at h
  split at h
  · exact absurd h (by simp)
  · injection h with h
    exact h.symm

theorem ebind_ok {α β ε : Type} (a : α) (f : α → Except ε β) :
    (Except.ok a >>= f) = f a := rfl

theorem ebind_err {α β ε : Type} (e : ε) (f : α → Except ε β) :
    ((Except.error e : Except ε α) >>= f) = Except.error e := rfl

theorem epure_eq {α ε : Type} (a : α) : (pure a : Except ε α) = Except.ok a := rfl

theorem emap_err {α β ε : Type} (f : α → β) (e : ε) :
    Except.map f (Except.error e : Except ε α) = Except.error e := rfl

theorem emap_ok {α β ε : Type} (f : α → β) (a : α) :
    Except.map f (Except.ok a : Except ε α) = Except.ok (f a) := rfl

theorem parseModuleRecord_fields (payload : List Nat) (base : Nat) (rec : ModuleRecord)
    (h : parseModuleRecord payload base = .ok rec) :
    (readU32LE payload (base + 12) = 0 → rec.contents = []) ∧
    (readU32LE payload (base + 20) = 0 → rec.sourcemap = none) ∧
    (0 < readU32LE payload (base + 20) →
      rec.sourcemap = some ((payload.drop (readU32LE payload (base + 16))).take
        (readU32LE payload (base + 20)))) ∧
    (readU32LE payload (base + 28) = 0 → rec.bytecode = none) ∧
    (0 < readU32LE payload (base + 28) →
      rec.bytecode = some ((payload.drop (readU32LE payload (base + 24))).take
        (readU32LE payload (base + 28)))) := by
  unfold parseModuleRecord at h
  cases h1 : readPointerFromPayload payload base with
  | error e => rw [h1, ebind_err] at h; exact absurd h (by simp)
  | ok namePtr =>
  rw [h1] at h
  simp only [ebind_ok] at h
  cases h2 : readPointerFromPayload payload (base + 8) with
  | error e => rw [h2, ebind_err] at h; exact absurd h (by simp)
  | ok contentsPtr =>
  rw [h2] at h
  simp only [ebind_ok] at h
  cases h3 : readPointerFromPayload payload (base + 16) with
  | error e => rw [h3, ebind_err] at h; exact absurd h (by simp)
  | ok sourcemapPtr =>
  rw [h3] at h
  simp only [ebind_ok] at h
  cases h4 : readPointerFromPayload payload (base + 24) with
  | error e => rw [h4, ebind_err] at h; exact absurd h (by simp)
  | ok bytecodePtr =>
  rw [h4] at h
  simp only [ebind_ok] at h
  cases h5 : decodeUtf8 payload namePtr with
  | error e => rw [h5, ebind_err] at h; exact absurd h (by simp)
  | ok originalPath =>
  rw [h5] at h
  simp only [ebind_ok] at h
  cases h6 : slicePointer payload contentsPtr with
  | error e => rw [h6, ebind_err] at h; exact absurd h (by simp)
  | ok contents =>
  rw [h6] at h
  simp only [ebind_ok] at h
  have hc := readPointerFromPayload_ok_inv payload (base + 8) contentsPtr h2
  have hs := readPointerFromPayload_ok_inv payload (base + 16) sourcemapPtr h3
  have hbc := readPointerFromPayload_ok_inv payload (base + 24) bytecodePtr h4
  have e12 : base + 8 + 4 = base + 12 := by omega
  have e20 : base + 16 + 4 = base + 20 := by omega
  have e28 : base + 24 + 4 = base + 28 := by omega
  rw [e12] at hc
  rw [e20] at hs
  rw [e28] at hbc
  have hclen : contentsPtr.length = readU32LE payload (base + 12) := by rw [hc]
  have hslen : sourcemapPtr.length = readU32LE payload (base + 20) := by rw [hs]
  have hsoff : sourcemapPtr.offset = readU32LE payload (base + 16) := by rw [hs]
  have hblen : bytecodePtr.length = readU32LE payload (base + 28) := by rw [hbc]
  have hboff : bytecodePtr.offset = readU32LE payload (base + 24) := by rw [hbc]
  have hcontents : readU32LE payload (base + 12) = 0 → contents = [] := by
    intro hz
    have hlen : contentsPtr.length = 0 := by omega
    rw [slicePointer_zero payload contentsPtr hlen] at h6
    injection h6 with h6
    exact h6.symm
  by_cases hsl : 0 < sourcemapPtr.length
  · rw [if_pos hsl] at h
    cases h9 : slicePointer payload sourcemapPtr with
    | error e =>
      rw [h9] at h
      simp only [emap_err, ebind_err] at h
      exact absurd h (by simp)
    | ok sm =>
    rw [h9] at h
    simp only [emap_ok, ebind_ok] at h
    have hsm := slicePointer_ok_pos payload sourcemapPtr sm hsl h9
    rw [hslen, hsoff] at hsm
    by_cases hbl : 0 < bytecodePtr.length
    · rw [if_pos hbl] at h
      cases h10 : slicePointer payload bytecodePtr with
      | error e =>
        rw [h10] at h
        simp only [emap_err, ebind_err] at h
        exact absurd h (by simp)
      | ok bc =>
      rw [h10] at h
      simp only [emap_ok, ebind_ok, epure_eq] at h
      injection h with h
      subst h
      have hbcv := slicePointer_ok_pos payload bytecodePtr bc hbl h10
      rw [hblen, hboff] at hbcv
      refine ⟨hcontents, ?_, ?_, ?_, ?_⟩
      · intro hz; omega
      · intro _; simp [hsm]
      · intro hz; omega
      · intro _; simp [hbcv]
    · rw [if_neg hbl] at h
      simp only [epure_eq, ebind_ok] at h
      injection h with h
      subst h
      refine ⟨hcontents, ?_, ?_, ?_, ?_⟩
      · intro hz; omega
      · intro _; simp [hsm]
      · intro _; rfl
      · intro hp; omega
  · rw [if_neg hsl] at h
    simp only [epure_eq, ebind_ok] at h
    by_cases hbl : 0 < bytecodePtr.length
    · rw [if_pos hbl] at h
      cases h10 : slicePointer payload bytecodePtr with
      | error e =>
        rw [h10] at h
        simp only [emap_err, ebind_err] at h
        exact absurd h (by simp)
      | ok bc =>
      rw [h10] at h
      simp only [emap_ok, ebind_ok, epure_eq] at h
      injection h with h
      subst h
      have hbcv := slicePointer_ok_pos payload bytecodePtr bc hbl h10
      rw [hblen, hboff] at hbcv
      refine ⟨hcontents, ?_, ?_, ?_, ?_⟩
      · intro _; rfl
      · intro hp; omega
      · intro hz; omega
      · intro _; simp [hbcv]
    · rw [if_neg hbl] at h
      injection h with h
      subst h
      refine ⟨hcontents, ?_, ?_, ?_, ?_⟩
      · intro _; rfl
      · intro hp; omega
      · intro _; rfl
      · intro hp; omega

theorem slicePointer_ok_bound (bytes : List Nat) (ptr : StringPointer) (s : List Nat)
    (h : slicePointer bytes ptr = .ok s) (hpos : 0 < ptr.length) :
    ptr.offset + ptr.length ≤ bytes.length := by
  unfold slicePointer at h
  rw [if_neg (by omega)] at h
  split at h
  · exact absurd h (by simp)
  · next h2 => omega

theorem slicePointer_oob (bytes : List Nat) (ptr : StringPointer) (hpos : 0 < ptr.length)
    (hoob : bytes.length < ptr.offset + ptr.length) :
    slicePointer bytes ptr = .error slicePointerMsg := by
  unfold slicePointer
  rw [if_neg (by omega), if_pos (by omega)]

theorem runExtraction_parse_error (exeBytes : List Nat) (outputDir : List Char)
    (blob : List Nat) (e : List Char) (h1 : extractEmbeddedData exeBytes = .ok blob)
    (h2 : parseStandalone blob = .error e) :
    runExtraction exeBytes outputDir = ([], some e) := by
  unfold runExtraction
  rw [h1]
  show (match parseStandalone blob with
    | Except.error e => (([] : List WriteItem), some e)
    | Except.ok parsed => writeOutputs parsed outputDir) = ([], some e)
  rw [h2]

theorem extractEmbeddedData_ok_of_A (fb p : List Nat) (h : extractBunSection fb = .ok p) :
    extractEmbeddedData fb = .ok p := by
  unfold extractEmbeddedData
  rw [h]

theorem extractEmbeddedData_fallback (fb : List Nat) (e : List Char) (b : List Nat)
    (h : extractBunSection fb = .error e) (h2 : extractTrailerAppendedBlob fb = some b) :
    extractEmbeddedData fb = .ok b := by
  unfold extractEmbeddedData
  rw [h, h2]

theorem extractEmbeddedData_both_fail (fb : List Nat) (e : List Char)
    (h : extractBunSection fb = .error e) (h2 : extractTrailerAppendedBlob fb = none) :
    extractEmbeddedData fb = .error
      (e ++ "；同时也未检测到结尾的 Bun trailer。请确认该可执行文件确实由 \"bun build --compile\" 生成。".data) := by
  unfold extractEmbeddedData
  rw [h, h2]

theorem extractTrailer_zero (fb : List Nat) (h : readU64LE fb (fb.length - 8) = 0) :
    extractTrailerAppendedBlob fb = none := by
  unfold extractTrailerAppendedBlob
  split
  · rfl
  · cases lastIndexOfSubarray fb TRAILER_BYTES with
    | none => rfl
    | some t => simp [h]

theorem extractTrailer_too_big (fb : List Nat)
    (h : fb.length < readU64LE fb (fb.length - 8)) :
    extractTrailerAppendedBlob fb = none := by
  unfold extractTrailerAppendedBlob
  split
  · rfl
  · cases lastIndexOfSubarray fb TRAILER_BYTES with
    | none => rfl
    | some t =>
      by_cases hz : readU64LE fb (fb.length - 8) = 0
      · simp [hz]
      · rw [if_neg hz, if_pos (by omega)]

theorem extractTrailer_exceeds_safe_range (fb : List Nat)
    (h : MAX_SAFE_INTEGER < readU64LE fb (fb.length - 8)) :
    extractTrailerAppendedBlob fb = none := by
  unfold extractTrailerAppendedBlob
  split
  · rfl
  · cases lastIndexOfSubarray fb TRAILER_BYTES with
    | none => rfl
    | some t =>
      by_cases hz : readU64LE fb (fb.length - 8) = 0
      · simp [hz]
      · rw [if_neg hz]
        by_cases hb : readU64LE fb (fb.length - 8) > fb.length
        · rw [if_pos hb]
        · rw [if_neg hb, if_pos (by omega)]

theorem extractTrailer_neg_start (fb : List Nat)
    (h : (fb.length : Int) - 8 - (readU64LE fb (fb.length - 8) : Int) < 0) :
    extractTrailerAppendedBlob fb = none := by
  unfold extractTrailerAppendedBlob
  split
  · rfl
  · cases lastIndexOfSubarray fb TRAILER_BYTES with
    | none => rfl
    | some t =>
      by_cases hz : readU64LE fb (fb.length - 8) = 0
      · simp [hz]
      · rw [if_neg hz]
        by_cases hb : readU64LE fb (fb.length - 8) > fb.length
        · rw [if_pos hb]
        · rw [if_neg hb]
          by_cases hm : readU64LE fb (fb.length - 8) > MAX_SAFE_INTEGER
          · rw [if_pos hm]
          · rw [if_neg hm, if_pos h]

theorem extractTrailer_some_inv (fb b : List Nat) :
    extractTrailerAppendedBlob fb = some b →
    b = (fb.take (fb.length - 8)).drop (fb.length - 8 - readU64LE fb (fb.length - 8)) ∧
      lastIndexOfSubarray b TRAILER_BYTES ≠ none := by
  unfold extractTrailerAppendedBlob
  split
  · intro h; exact absurd h (by simp)
  cases lastIndexOfSubarray fb TRAILER_BYTES with
  | none => intro h; exact absurd h (by simp)
  | some t =>
    by_cases hz : readU64LE fb (fb.length - 8) = 0
    · rw [if_pos hz]; intro h; exact absurd h (by simp)
    rw [if_neg hz]
    by_cases hb : readU64LE fb (fb.length - 8) > fb.length
    · rw [if_pos hb]; intro h; exact absurd h (by simp)
    rw [if_neg hb]
    by_cases hm : readU64LE fb (fb.length - 8) > MAX_SAFE_INTEGER
    · rw [if_pos hm]; intro h; exact absurd h (by simp)
    rw [if_neg hm]
    by_cases hneg : ((fb.length : Int) - 8 - (readU64LE fb (fb.length - 8) : Int)) < 0
    · rw [if_pos hneg]; intro h; exact absurd h (by simp)
    rw [if_neg hneg]
    have htn : ((fb.length : Int) - 8 - (readU64LE fb (fb.length - 8) : Int)).toNat =
        fb.length - 8 - readU64LE fb (fb.length - 8) := by omega
    intro h
    rw [htn] at h
    change (match lastIndexOfSubarray
        (List.drop (fb.length - 8 - readU64LE fb (fb.length - 8)) (List.take (fb.length - 8) fb))
        TRAILER_BYTES with
      | none => (none : Option (List Nat))
      | some _ => some (List.drop (fb.length - 8 - readU64LE fb (fb.length - 8))
          (List.take (fb.length - 8) fb))) = some b at h
    cases hidx : lastIndexOfSubarray
        (List.drop (fb.length - 8 - readU64LE fb (fb.length - 8)) (List.take (fb.length - 8) fb))
        TRAILER_BYTES with
    | none => rw [hidx] at h; exact absurd h (by simp)
    | some u =>
      rw [hidx] at h
      injection h with h
      constructor
      · rw [← h]
      · rw [← h, hidx]
        simp

theorem contentWrites_append (l1 l2 : List WriteItem) :
    contentWrites (l1 ++ l2) = contentWrites l1 ++ contentWrites l2 := by
  unfold contentWrites
  exact List.filterMap_append l1 l2 _

/-- C9: for every pointer with length zero, slicing and UTF-8 decoding
succeed and return an empty buffer / empty string regardless of the offset
value, even when the offset alone lies beyond the payload's end: the
zero-length early return is taken before any bounds check, so such a pointer
can never raise an out-of-range error. -/
theorem C9_zero_length_pointer (bytes : List Nat) (ptr : StringPointer)
    (h : ptr.length = 0) :
    slicePointer bytes ptr = .ok [] ∧ decodeUtf8 bytes ptr = .ok [] := by
  refine ⟨slicePointer_zero bytes ptr h, ?_⟩
  unfold decodeUtf8
  rw [if_pos h]

theorem C9_zero_length_pointer_witness :
    slicePointer [] ⟨1000, 0⟩ = .ok [] ∧ decodeUtf8 [] ⟨1000, 0⟩ = .ok [] :=
  C9_zero_length_pointer [] ⟨1000, 0⟩ rfl

/-- C3: path sanitization splits the virtual path on path separators
(backslashes having been normalized to `/`), drops empty segments and every
`..` segment, and rejoins the rest; in particular `../../etc/passwd`
resolves to the relative path `etc/passwd`. -/
theorem C3_sanitize_drops_dotdot (original : List Char) :
    sanitizeModulePath original = joinSep '/'
      ((splitP slashB (preSanitize original)).filter
        (fun part => ¬(part = [] ∨ part = dotdot))) ∧
    sanitizeModulePath "../../etc/passwd".data = "etc/passwd".data :=
  ⟨rfl, by decide⟩

/-- C6: record-stride selection: a module-array length divisible by the
primary width 40 selects stride 40; otherwise a length divisible by the
legacy width 36 selects stride 36 and a legacy bundle parses successfully;
if neither width divides evenly the parser fails with the unknown-layout
error. -/
theorem C6_record_stride :
    (∀ len : Nat,
      (40 ∣ len → chooseStride len = .ok 40) ∧
      (¬ 40 ∣ len → 36 ∣ len → chooseStride len = .ok 36) ∧
      (¬ 40 ∣ len → ¬ 36 ∣ len →
        chooseStride len = .error "模块记录长度不是已知的结构尺寸整数倍 (36 或 40 字节)".data)) ∧
    parseStandalone legacyBlob =
      .ok ⟨[⟨"a.js".data, [97, 46, 106, 115], none, none, 1, 1, 0, 0⟩], 0, []⟩ := by
  constructor
  · intro len
    refine ⟨?_, ?_, ?_⟩
    · intro hd
      have h40 : len % MODULE_RECORD_SIZE = 0 := by
        have h : len % 40 = 0 := by omega
        exact h
      unfold chooseStride
      rw [if_neg (by simp [h40])]
      rfl
    · intro hnd hd
      have h40 : len % MODULE_RECORD_SIZE ≠ 0 := by
        have h : ¬ len % 40 = 0 := by omega
        exact h
      have h36 : len % 36 = 0 := by omega
      unfold chooseStride
      rw [if_pos h40, if_pos h36]
    · intro hnd hnd36
      have h40 : len % MODULE_RECORD_SIZE ≠ 0 := by
        have h : ¬ len % 40 = 0 := by omega
        exact h
      have h36 : ¬ len % 36 = 0 := by omega
      unfold chooseStride
      rw [if_pos h40, if_neg h36]
  · decide

theorem C6_record_stride_witness :
    chooseStride 80 = .ok 40 ∧ chooseStride 72 = .ok 36 ∧
      chooseStride 50 = .error "模块记录长度不是已知的结构尺寸整数倍 (36 或 40 字节)".data :=
  ⟨(C6_record_stride.1 80).1 (by decide),
   (C6_record_stride.1 72).2.1 (by decide) (by decide),
   (C6_record_stride.1 50).2.2 (by decide) (by decide)⟩

/-- C2 (amended): whenever a pointer is actually sliced its bounds were
validated first, and any violation fails with the fixed `FormatError`
message of `slicePointer` (which does not name the specific field); a
payload whose module-table end exceeds `byteCount` raises the module-table
error, and a run whose parse fails produces no output files. -/
theorem C2_pointer_validation :
    (∀ (bytes : List Nat) (ptr : StringPointer) (s : List Nat),
      slicePointer bytes ptr = .ok s → 0 < ptr.length →
        ptr.offset + ptr.length ≤ bytes.length) ∧
    (∀ (bytes : List Nat) (ptr : StringPointer), 0 < ptr.length →
      bytes.length < ptr.offset + ptr.length →
        slicePointer bytes ptr = .error slicePointerMsg) ∧
    (∀ (exeBytes : List Nat) (outputDir : List Char) (blob : List Nat) (e : List Char),
      extractEmbeddedData exeBytes = .ok blob → parseStandalone blob = .error e →
        runExtraction exeBytes outputDir = ([], some e)) ∧
    parseStandalone badModulesBlob = .error "模块表越界，嵌入数据可能损坏".data ∧
    runExtraction fileBad "/out".data = ([], some "模块表越界，嵌入数据可能损坏".data) := by
  refine ⟨slicePointer_ok_bound, slicePointer_oob, runExtraction_parse_error, by decide, ?_⟩
  exact runExtraction_parse_error fileBad "/out".data badModulesBlob _ (by decide) (by decide)

theorem C2_pointer_validation_witness :
    slicePointer [0] ⟨5, 3⟩ = .error slicePointerMsg ∧
      runExtraction fileBad "/o".data = ([], some "模块表越界，嵌入数据可能损坏".data) :=
  ⟨C2_pointer_validation.2.1 [0] ⟨5, 3⟩ (by decide) (by decide),
   C2_pointer_validation.2.2.1 fileBad "/o".data badModulesBlob
     "模块表越界，嵌入数据可能损坏".data (by decide) (by decide)⟩

/-- C2 counterexample: an out-of-range module-contents pointer and an
out-of-range source-map pointer produce the identical generic error
message, so the failure does not name the violated field as the claim
states. -/
theorem C2_message_counterexample :
    parseStandalone badContentsBlob = .error slicePointerMsg ∧
    parseStandalone badSourcemapBlob = .error slicePointerMsg ∧
    slicePointerMsg = "字符串指针越界，嵌入数据损坏".data :=
  ⟨by decide, by decide, rfl⟩

/-- C7: the trailing-blob fallback reads an 8-byte little-endian total
length from the last 8 bytes, rejects a zero value, a value exceeding the
file size or the safe-integer range, and a negative start; an accepted blob
is exactly `file[start : fileLength - 8]` and itself contains the trailer
marker; the fallback is consulted only when the structured-section strategy
throws. -/
theorem C7_trailer_fallback :
    (∀ fb : List Nat, readU64LE fb (fb.length - 8) = 0 →
      extractTrailerAppendedBlob fb = none) ∧
    (∀ fb : List Nat, fb.length < readU64LE fb (fb.length - 8) →
      extractTrailerAppendedBlob fb = none) ∧
    (∀ fb : List Nat, MAX_SAFE_INTEGER < readU64LE fb (fb.length - 8) →
      extractTrailerAppendedBlob fb = none) ∧
    (∀ fb : List Nat, (fb.length : Int) - 8 - (readU64LE fb (fb.length - 8) : Int) < 0 →
      extractTrailerAppendedBlob fb = none) ∧
    (∀ fb b : List Nat, extractTrailerAppendedBlob fb = some b →
      b = (fb.take (fb.length - 8)).drop (fb.length - 8 - readU64LE fb (fb.length - 8)) ∧
      lastIndexOfSubarray b TRAILER_BYTES ≠ none) ∧
    (∀ fb p : List Nat, extractBunSection fb = .ok p → extractEmbeddedData fb = .ok p) ∧
    (∀ (fb : List Nat) (e : List Char) (b : List Nat), extractBunSection fb = .error e →
      extractTrailerAppendedBlob fb = some b → extractEmbeddedData fb = .ok b) ∧
    (∀ (fb : List Nat) (e : List Char), extractBunSection fb = .error e →
      extractTrailerAppendedBlob fb = none → extractEmbeddedData fb = .error
        (e ++ "；同时也未检测到结尾的 Bun trailer。请确认该可执行文件确实由 \"bun build --compile\" 生成。".data)) :=
  ⟨extractTrailer_zero, extractTrailer_too_big, extractTrailer_exceeds_safe_range,
   extractTrailer_neg_start, extractTrailer_some_inv, extractEmbeddedData_ok_of_A,
   extractEmbeddedData_fallback, extractEmbeddedData_both_fail⟩

theorem C7_trailer_fallback_witness :
    extractEmbeddedData file56 = .ok blob48 ∧
      extractTrailerAppendedBlob file56z = none :=
  ⟨C7_trailer_fallback.2.2.2.2.2.2.1 file56 "文件不是有效的 PE (MZ) 可执行文件".data blob48
     (by decide) (by decide),
   C7_trailer_fallback.1 file56z (by decide)⟩

/-- C8: a zero-length source-map pointer decodes to `null` (`none`), never
an empty buffer, so the manifest reports `hasSourcemap = false` and no
`.map` write happens for that module; a nonzero-length pointer yields the
byte-identical payload slice, written to `<resolvedPath>.map`, with
`hasSourcemap = true`. -/
theorem C8_sourcemap_optional :
    (∀ (payload : List Nat) (base : Nat) (rec : ModuleRecord),
      parseModuleRecord payload base = .ok rec →
      (readU32LE payload (base + 20) = 0 → rec.sourcemap = none) ∧
      (0 < readU32LE payload (base + 20) →
        rec.sourcemap = some ((payload.drop (readU32LE payload (base + 16))).take
          (readU32LE payload (base + 20))))) ∧
    (∀ (out : List Char) (m : ModuleRecord) (index : Nat) (rel : List Char),
      (m.sourcemap = none →
        (mkEntry index m rel).hasSourcemap = false ∧
        ∀ (p : List Char) (c : List Nat),
          WriteItem.sourcemapFile p c ∉ moduleWrites out m rel) ∧
      (∀ sm : List Nat, m.sourcemap = some sm →
        (mkEntry index m rel).hasSourcemap = true ∧
        WriteItem.sourcemapFile (pathResolve out rel ++ ".map".data) sm ∈
          moduleWrites out m rel)) := by
  constructor
  · intro payload base rec h
    have hf := parseModuleRecord_fields payload base rec h
    exact ⟨hf.2.1, hf.2.2.1⟩
  · intro out m index rel
    constructor
    · intro hnone
      constructor
      · simp [mkEntry, hnone]
      · intro p c hmem
        unfold moduleWrites at hmem
        rw [hnone] at hmem
        cases hbc : m.bytecode <;> rw [hbc] at hmem <;> simp at hmem
    · intro sm hsome
      constructor
      · simp [mkEntry, hsome]
      · unfold moduleWrites
        rw [hsome]
        cases hbc : m.bytecode <;> simp

theorem C8_sourcemap_optional_witness :
    ((⟨[], [], some [7, 8], none, 0, 0, 0, 0⟩ : ModuleRecord).sourcemap =
      some ((smPayload.drop (readU32LE smPayload 18)).take (readU32LE smPayload 22))) ∧
    (mkEntry 0 (demoModule "a.js".data) "a.js".data).hasSourcemap = false :=
  ⟨(C8_sourcemap_optional.1 smPayload 2 ⟨[], [], some [7, 8], none, 0, 0, 0, 0⟩
      (by decide)).2 (by decide),
   ((C8_sourcemap_optional.2 "/o".data (demoModule "a.js".data) 0 "a.js".data).1 rfl).1⟩

/-- C10: a zero-length contents pointer yields an empty byte buffer (never
`null`), the writer still performs a content-file write for the module at
its resolved path, and the module is listed in the manifest with its
index. -/
theorem C10_empty_contents :
    (∀ (payload : List Nat) (base : Nat) (rec : ModuleRecord),
      parseModuleRecord payload base = .ok rec →
      readU32LE payload (base + 12) = 0 → rec.contents = []) ∧
    (∀ (out : List Char) (m : ModuleRecord) (rel : List Char),
      WriteItem.content (pathResolve out rel) m.contents ∈ moduleWrites out m rel) ∧
    (∀ (parsed : ParsedStandalone) (outputDir : List Char) (j : Nat) (mm : ModuleRecord),
      parsed.modules.get? j = some mm →
      (∃ rel, WriteItem.content (pathResolve (normalizeAbs outputDir) rel) mm.contents ∈
        (writeOutputs parsed outputDir).1) ∧
      ∃ (es : List ManifestEntry) (e : ManifestEntry),
        (writeOutputs parsed outputDir).1.getLast? =
          some (WriteItem.manifestFile (pathResolve (normalizeAbs outputDir) "metadata.json".data)
            es parsed.entryPointId parsed.compileExecArgv) ∧
        es.get? j = some e ∧ e.index = j) := by
  refine ⟨?_, ?_, ?_⟩
  · intro payload base rec h hz
    exact (parseModuleRecord_fields payload base rec h).1 hz
  · intro out m rel
    unfold moduleWrites
    simp
  · intro parsed outputDir j mm hget
    rw [writeOutputs_spec]
    constructor
    · obtain ⟨rel, hmem⟩ := writesSpec_content_of_get? (normalizeAbs outputDir)
        parsed.modules 0 [] j mm hget
      exact ⟨rel, by
        apply List.mem_append_left
        exact List.mem_append_left _ hmem⟩
    · refine ⟨entriesSpec parsed.modules 0 [], ?_⟩
      have hlt : j < parsed.modules.length := by
        rcases List.get?_eq_some.mp hget with ⟨hl, _⟩
        exact hl
      have hlt2 : j < (entriesSpec parsed.modules 0 []).length := by
        rw [entriesSpec_length]
        exact hlt
      have hegetr := List.get?_eq_get hlt2
      refine ⟨(entriesSpec parsed.modules 0 []).get ⟨j, hlt2⟩, ?_, hegetr, ?_⟩
      · rw [List.append_assoc, List.getLast?_append_of_ne_nil _ (by simp),
          List.getLast?_append_of_ne_nil _ (by simp)]
        rfl
      · obtain ⟨mm2, rel2, _, hmk⟩ := entriesSpec_get? parsed.modules 0 [] j _ hegetr
        rw [hmk]
        simp [mkEntry]

theorem C10_empty_contents_witness :
    ((⟨[], [], some [7, 8], none, 0, 0, 0, 0⟩ : ModuleRecord).contents = []) ∧
    (∃ rel, WriteItem.content (pathResolve (normalizeAbs "/o".data) rel) ([] : List Nat) ∈
      (writeOutputs demoEmptyContentsParsed "/o".data).1) :=
  ⟨C10_empty_contents.1 smPayload 2 ⟨[], [], some [7, 8], none, 0, 0, 0, 0⟩
     (by decide) (by decide),
   (C10_empty_contents.2.2 demoEmptyContentsParsed "/o".data 0 (demoModule "a.js".data)
     (by decide)).1⟩

theorem chooseFinalPath_of_sanitize_ne (m : ModuleRecord) (index : Nat)
    (h : sanitizeModulePath m.originalPath ≠ []) :
    chooseFinalPath m index =
      chooseFinalPathTail (sanitizeModulePath m.originalPath) m.loader index := by
  unfold chooseFinalPath
  show chooseFinalPathTail
      (if sanitizeModulePath m.originalPath = [] then fallbackName m.loader index
        else sanitizeModulePath m.originalPath) m.loader index = _
  rw [if_neg h]

/-- C5: collision resolution keys a case-insensitive seen-map by the
resolved path; the first module to resolve to a path keeps it and a repeat
gets the incrementing numeric suffix before the extension: two records
resolving to `a/b.js` yield `a/b.js` then `a/b.2.js` in record order, and
the map is case-insensitive (`A/B.js` then `a/b.js` yields `a/b.2.js`). -/
theorem C5_collision_suffix (m1 m2 m3 m4 : ModuleRecord)
    (h1 : sanitizeModulePath m1.originalPath = "a/b.js".data)
    (h2 : sanitizeModulePath m2.originalPath = "a/b.js".data)
    (h3 : sanitizeModulePath m3.originalPath = "A/B.js".data)
    (h4 : sanitizeModulePath m4.originalPath = "a/b.js".data) :
    (chooseRelativePath m1 0 []).1 = "a/b.js".data ∧
    (chooseRelativePath m2 1 (chooseRelativePath m1 0 []).2).1 = "a/b.2.js".data ∧
    (chooseRelativePath m3 0 []).1 = "A/B.js".data ∧
    (chooseRelativePath m4 1 (chooseRelativePath m3 0 []).2).1 = "a/b.2.js".data := by
  have hf1 : chooseFinalPath m1 0 = "a/b.js".data := by
    rw [chooseFinalPath_of_sanitize_ne m1 0 (by rw [h1]; decide), h1,
      chooseFinalPathTail_of_good "a/b.js".data m1.loader 0 ["a".data, "b.js".data]
        (by unfold goodPieces; decide) (by decide)]
    decide
  have hf2 : chooseFinalPath m2 1 = "a/b.js".data := by
    rw [chooseFinalPath_of_sanitize_ne m2 1 (by rw [h2]; decide), h2,
      chooseFinalPathTail_of_good "a/b.js".data m2.loader 1 ["a".data, "b.js".data]
        (by unfold goodPieces; decide) (by decide)]
    decide
  have hf3 : chooseFinalPath m3 0 = "A/B.js".data := by
    rw [chooseFinalPath_of_sanitize_ne m3 0 (by rw [h3]; decide), h3,
      chooseFinalPathTail_of_good "A/B.js".data m3.loader 0 ["A".data, "B.js".data]
        (by unfold goodPieces; decide) (by decide)]
    decide
  have hf4 : chooseFinalPath m4 1 = "a/b.js".data := by
    rw [chooseFinalPath_of_sanitize_ne m4 1 (by rw [h4]; decide), h4,
      chooseFinalPathTail_of_good "a/b.js".data m4.loader 1 ["a".data, "b.js".data]
        (by unfold goodPieces; decide) (by decide)]
    decide
  have hp1 : chooseRelativePath m1 0 [] = ("a/b.js".data, [("a/b.js".data, 1)]) := by
    unfold chooseRelativePath
    rw [hf1]
    decide
  have hp2 : chooseRelativePath m2 1 [("a/b.js".data, 1)] =
      ("a/b.2.js".data, [("a/b.js".data, 2)]) := by
    unfold chooseRelativePath
    rw [hf2]
    decide
  have hp3 : chooseRelativePath m3 0 [] = ("A/B.js".data, [("a/b.js".data, 1)]) := by
    unfold chooseRelativePath
    rw [hf3]
    decide
  have hp4 : chooseRelativePath m4 1 [("a/b.js".data, 1)] =
      ("a/b.2.js".data, [("a/b.js".data, 2)]) := by
    unfold chooseRelativePath
    rw [hf4]
    decide
  refine ⟨by rw [hp1], ?_, by rw [hp3], ?_⟩
  · rw [hp1, hp2]
  · rw [hp3, hp4]

theorem C5_collision_suffix_witness :
    (chooseRelativePath (demoModule "a/b.js".data) 0 []).1 = "a/b.js".data ∧
    (chooseRelativePath (demoModule "a/b.js".data) 1
      (chooseRelativePath (demoModule "a/b.js".data) 0 []).2).1 = "a/b.2.js".data :=
  have h := C5_collision_suffix (demoModule "a/b.js".data) (demoModule "a/b.js".data)
    (demoModule "A/B.js".data) (demoModule "a/b.js".data)
    (by decide) (by decide) (by decide) (by decide)
  ⟨h.1, h.2.1⟩

/-- C1: for every module of a parsed bundle the chosen relative path, joined
to the output directory and re-resolved, passes the containment check (it
lies inside the output directory), so the writer never errors; and whenever
the containment check fails for a resolved target, the loop body raises the
fatal path-escape error carrying the unmodified target, producing no write
for that module — never a silent clamp. -/
theorem C1_paths_inside :
    (∀ (parsed : ParsedStandalone) (outputDir : List Char),
      (writeOutputs parsed outputDir).2 = none ∧
      ∀ pc ∈ contentWrites (writeOutputs parsed outputDir).1,
        insideCheckB (normalizeAbs outputDir) (ensureTrailingSep (normalizeAbs outputDir))
          pc.1 = true) ∧
    (∀ (out ws : List Char) (m : ModuleRecord) (index : Nat) (rel : List Char),
      insideCheckB out ws (pathResolve out rel) = false →
        writeModuleChecked out ws m index rel =
          .error ("生成的路径越界: ".data ++ pathResolve out rel)) := by
  constructor
  · intro parsed outputDir
    rw [writeOutputs_spec]
    refine ⟨rfl, ?_⟩
    intro pc hpc
    rw [contentWrites_append, contentWrites_append] at hpc
    have hex1 : contentWrites (if parsed.compileExecArgv = [] then []
        else [WriteItem.execArgvFile
          (pathResolve (normalizeAbs outputDir) "__compile_exec_argv.txt".data)
          (parsed.compileExecArgv ++ ['\n'])]) = [] := by
      split <;> rfl
    have hex2 : contentWrites [WriteItem.manifestFile
        (pathResolve (normalizeAbs outputDir) "metadata.json".data)
        (entriesSpec parsed.modules 0 []) parsed.entryPointId parsed.compileExecArgv] = [] := rfl
    rw [hex1, hex2] at hpc
    simp only [List.append_nil] at hpc
    obtain ⟨m', i', used', hpc2⟩ := contentWrites_writesSpec_mem (normalizeAbs outputDir)
      parsed.modules 0 [] pc hpc
    rw [hpc2]
    have hres : normalizeAbs outputDir = renderAbs (normFold [] (splitP slashB outputDir)) := rfl
    rw [hres]
    exact insideCheck_resolve (normFold [] (splitP slashB outputDir))
      (outputDir_segs_clean outputDir) _ (chooseRel_relGood m' i' used')
  · intro out ws m index rel h
    unfold writeModuleChecked
    rw [if_neg (by simp [h])]

theorem C1_paths_inside_witness :
    writeModuleChecked "/out".data "/out/".data (demoModule "x".data) 0 "../x".data =
      .error ("生成的路径越界: ".data ++ pathResolve "/out".data "../x".data) :=
  C1_paths_inside.2 "/out".data "/out/".data (demoModule "x".data) 0 "../x".data (by decide)

/-- C4 (amended): for every bundle with N module records the writer
performs exactly N content-file writes and ends with a manifest listing
exactly N entries in record order, entry `j` carrying index `j` and the
fields of module `j`; the N resolved relative paths are, however, not
guaranteed pairwise distinct. -/
theorem C4_manifest_order (parsed : ParsedStandalone) (outputDir : List Char) :
    (writeOutputs parsed outputDir).2 = none ∧
    (contentWrites (writeOutputs parsed outputDir).1).length = parsed.modules.length ∧
    ∃ es : List ManifestEntry,
      (writeOutputs parsed outputDir).1.getLast? =
        some (WriteItem.manifestFile (pathResolve (normalizeAbs outputDir) "metadata.json".data)
          es parsed.entryPointId parsed.compileExecArgv) ∧
      es.length = parsed.modules.length ∧
      ∀ (j : Nat) (e : ManifestEntry), es.get? j = some e →
        e.index = j ∧ ∃ mm rel, parsed.modules.get? j = some mm ∧ e = mkEntry j mm rel := by
  rw [writeOutputs_spec]
  refine ⟨rfl, ?_, entriesSpec parsed.modules 0 [], ?_, entriesSpec_length parsed.modules 0 [], ?_⟩
  · rw [contentWrites_append, contentWrites_append]
    have hex1 : contentWrites (if parsed.compileExecArgv = [] then []
        else [WriteItem.execArgvFile
          (pathResolve (normalizeAbs outputDir) "__compile_exec_argv.txt".data)
          (parsed.compileExecArgv ++ ['\n'])]) = [] := by
      split <;> rfl
    have hex2 : contentWrites [WriteItem.manifestFile
        (pathResolve (normalizeAbs outputDir) "metadata.json".data)
        (entriesSpec parsed.modules 0 []) parsed.entryPointId parsed.compileExecArgv] = [] := rfl
    rw [hex1, hex2]
    simp only [List.append_nil]
    exact contentWrites_writesSpec_len (normalizeAbs outputDir) parsed.modules 0 []
  · rw [List.append_assoc, List.getLast?_append_of_ne_nil _ (by simp),
      List.getLast?_append_of_ne_nil _ (by simp)]
    rfl
  · intro j e he
    obtain ⟨mm, rel, hget, hmk⟩ := entriesSpec_get? parsed.modules 0 [] j e he
    refine ⟨by rw [hmk]; simp [mkEntry], mm, rel, hget, by rw [hmk]; simp⟩

/-- C4 counterexample: three records whose sanitized paths are `a.2.js`,
`a.js`, `a.js` produce the content-file targets `a.2.js`, `a.js`, `a.2.js`:
the collision suffix of the third module coincides with the first module's
resolved path, so the resolved relative paths are not pairwise distinct and
fewer than N distinct content files result. -/
theorem C4_distinct_counterexample :
    (contentWrites (writeOutputs demoCollisionParsed "/out".data).1).map Prod.fst =
      ["/out/a.2.js".data, "/out/a.js".data, "/out/a.2.js".data] ∧
    ¬ ((contentWrites (writeOutputs demoCollisionParsed "/out".data).1).map Prod.fst).Nodup :=
  ⟨by decide, by decide⟩

theorem C4_manifest_order_witness :
    (writeOutputs demoCollisionParsed "/out".data).2 = none ∧
    (contentWrites (writeOutputs demoCollisionParsed "/out".data).1).length =
      demoCollisionParsed.modules.length :=
  have h := C4_manifest_order demoCollisionParsed "/out".data
  ⟨h.1, h.2.1⟩
